import Mathlib

/-!
# t/ffi/string.c: string and pointer-to-pointer helpers

A shallow embedding of the C helpers of `t/ffi/string.c` over an explicit
memory, and theorems about them.

## Memory model

Memory is a collection of disjoint objects.  A `Block` is an array of bytes
(a caller's buffer, a string literal of the file, or one of the file's static
`char` arrays); a `Slot` is an object of type `char *` (a caller's variable or
one of the file's static pointers).  A `char *` value is `none` (NULL) or a
block together with a byte offset; a `char **` value is `none`, the address of
a slot, or the address of bytes that was cast to `char **`.

Every function takes the memory and returns `Option (Mem × result)`; `none`
stands for undefined behaviour: a null or out-of-object access, a write to a
string literal, an overflow of a signed index, a library copy between
overlapping objects.  The library functions `strcmp`, `strcpy` and `sprintf`
are not part of the file; they are modelled by their contracts in ISO C.
-/

namespace FFIString

/-! ## Data model -/

/-- Bytes of a string literal, without its terminator. Bytes are naturals;
they are only copied and compared, never computed with. -/
def cstr (s : String) : List Nat := s.toList.map Char.toNat

/-- Largest value of the C type `int` (32 bits). -/
def INT_MAX : Nat := 2147483647

/-- Byte arrays of the program: caller-owned buffers, the string literals that
are handed out as pointers, and the `static char buffer[...]` of each function
(four different functions each declare their own `buffer`). -/
inductive Block
  | caller (k : Nat)
  | lit_foobarbaz
  | lit_arg_null
  | lit_out
  | pointer_pointer_return_buffer
  | fixed_test_buffer
  | test_pointer_arg_buffer
  | test_pointer_ret_buffer
  deriving DecidableEq

/-- String literals are read-only; everything else may be written. -/
def Block.writable : Block → Bool
  | .lit_foobarbaz => false
  | .lit_arg_null => false
  | .lit_out => false
  | _ => true

/-- A non-null `char *`: an object and a byte offset into it. -/
structure CharPtr where
  block : Block
  off : Nat
  deriving DecidableEq

/-- Pointer arithmetic `p + i` inside one object. -/
def CharPtr.add (p : CharPtr) (i : Nat) : CharPtr := ⟨p.block, p.off + i⟩

/-- Objects of type `char *`: caller-owned variables, `static char *tmp` of
`string_pointer_pointer_return` and `static char *null` of
`string_test_pointer_ret`. -/
inductive Slot
  | caller (k : Nat)
  | pointer_pointer_return_tmp
  | test_pointer_ret_null
  deriving DecidableEq

/-- A non-null `char **`: the address of a slot, or the address of `char`
storage converted by a cast (`(char**) &buffer`). -/
inductive PtrPtr
  | slot (s : Slot)
  | chars (p : CharPtr)
  deriving DecidableEq

/-- The C type `char *` (nullable). -/
abbrev char_p := Option CharPtr

/-- The C type `char **` (nullable). -/
abbrev char_pp := Option PtrPtr

/-- The C type `closure_t`: a function pointer, identified by a number;
`none` is the null function pointer. -/
abbrev closure_t := Option Nat

/-- Program state: contents of every byte array, contents of every pointer
slot, the static `my_closure`, and the trace of callback invocations (function
called, argument passed) in the order they happened. -/
structure Mem where
  bytes : Block → List Nat
  slots : Slot → char_p
  my_closure : closure_t
  calls : List (Nat × char_p)

/-- Contents of `static char buffer[] = "zero one  two  threefour "`: the
literal and its terminator. -/
def fixed_test_init : List Nat := cstr "zero one  two  threefour " ++ [0]

/-- State at program start, for given caller memory: literals hold their
text, `static char buffer[512]` arrays are zero-filled, static pointers are
null and no callback is registered. -/
def Mem.init (cbytes : Nat → List Nat) (cslots : Nat → char_p) : Mem where
  bytes := fun b =>
    match b with
    | .caller k => cbytes k
    | .lit_foobarbaz => cstr "foobarbaz" ++ [0]
    | .lit_arg_null => cstr "arg==NULL" ++ [0]
    | .lit_out => cstr "out" ++ [0]
    | .pointer_pointer_return_buffer => List.replicate 512 0
    | .fixed_test_buffer => fixed_test_init
    | .test_pointer_arg_buffer => List.replicate 512 0
    | .test_pointer_ret_buffer => List.replicate 512 0
  slots := fun s =>
    match s with
    | .caller k => cslots k
    | .pointer_pointer_return_tmp => none
    | .test_pointer_ret_null => none
  my_closure := none
  calls := []

/-- Layout facts that hold at program start and that no call can change (see
`wf_reachable`): the three literals hold their text and the three
`buffer[512]` arrays have 512 bytes. -/
structure Mem.WF (st : Mem) : Prop where
  foobarbaz : st.bytes .lit_foobarbaz = cstr "foobarbaz" ++ [0]
  arg_null : st.bytes .lit_arg_null = cstr "arg==NULL" ++ [0]
  out : st.bytes .lit_out = cstr "out" ++ [0]
  ppr_size : (st.bytes .pointer_pointer_return_buffer).length = 512
  tpa_size : (st.bytes .test_pointer_arg_buffer).length = 512
  tpr_size : (st.bytes .test_pointer_ret_buffer).length = 512

/-! ## Memory access -/

/-- Read `*p`; `none` outside the object. -/
def loadByte (st : Mem) (p : CharPtr) : Option Nat := (st.bytes p.block)[p.off]?

/-- Write `*p = c`; `none` outside the object or into a string literal. -/
def storeByte (st : Mem) (p : CharPtr) (c : Nat) : Option Mem :=
  if p.block.writable = true ∧ p.off < (st.bytes p.block).length then
    some { st with bytes := Function.update st.bytes p.block ((st.bytes p.block).set p.off c) }
  else none

/-- Read `*pp` for a `char **`; reading a pointer out of `char` storage is not
given a value. -/
def loadSlot (st : Mem) (pp : PtrPtr) : Option char_p :=
  match pp with
  | .slot s => some (st.slots s)
  | .chars _ => none

/-- Write `*pp = v` for a `char **`. -/
def storeSlot (st : Mem) (pp : PtrPtr) (v : char_p) : Option Mem :=
  match pp with
  | .slot s => some { st with slots := Function.update st.slots s v }
  | .chars _ => none

/-- Text at the head of a byte list: the bytes before the first zero byte;
`none` when there is no zero byte. -/
def textOf : List Nat → Option (List Nat)
  | [] => none
  | c :: rest => if c = 0 then some [] else (textOf rest).map (fun t => c :: t)

/-- The zero-terminated text that `p` points at. -/
def readText (st : Mem) (p : CharPtr) : Option (List Nat) :=
  textOf ((st.bytes p.block).drop p.off)

/-- Byte-wise comparison loop of `strcmp` on the two byte sequences: the
difference of the first pair of unequal bytes, or 0 when both texts end
together; `none` if an object ends before that. -/
def strcmpBytes : List Nat → List Nat → Option Int
  | a :: as, b :: bs =>
    if a ≠ b then some ((a : Int) - (b : Int))
    else if a = 0 then some 0
    else strcmpBytes as bs
  | _, _ => none

/-- The library function `strcmp`. -/
def strcmp (st : Mem) (a b : char_p) : Option Int :=
  match a, b with
  | some p, some q =>
    strcmpBytes ((st.bytes p.block).drop p.off) ((st.bytes q.block).drop q.off)
  | _, _ => none

/-- Store the bytes `cs` at `p`, `p + 1`, ... -/
def storeBytes : Mem → CharPtr → List Nat → Option Mem
  | st, _, [] => some st
  | st, p, c :: cs =>
    match storeByte st p c with
    | none => none
    | some st1 => storeBytes st1 (p.add 1) cs

/-- Whether the `n` bytes at `p` and the `k` bytes at `q` have a byte in
common. -/
def overlap (p : CharPtr) (n : Nat) (q : CharPtr) (k : Nat) : Bool :=
  decide (p.block = q.block ∧ p.off < q.off + k ∧ q.off < p.off + n)

/-- The library function `strcpy`, by its contract in ISO C (7.24.2.3): the
text at `src` and its terminator are copied to `dst`; copying between objects
that overlap is undefined, as are a source without terminator and a
destination that is too small or read-only. -/
def strcpy (st : Mem) (dst src : char_p) : Option Mem :=
  match dst, src with
  | some d, some a =>
    match readText st a with
    | none => none
    | some s =>
      if overlap d (s.length + 1) a (s.length + 1) = true then none
      else storeBytes st d (s ++ [0])
  | _, _ => none

/-- Items of a format string: an ordinary character, or the conversion
`%s`. -/
inductive Fmt
  | lit (c : Nat)
  | s
  deriving DecidableEq

/-- Format without conversions. -/
def Fmt.ofText (t : List Nat) : List Fmt := t.map Fmt.lit

/-- What a format produces: the characters of the output, and the place and
size (terminator included) of every string argument that is read for a `%s`.
A missing or null argument of `%s`, or one without terminator, has no defined
result. -/
def formatted (st : Mem) : List Fmt → List char_p → Option (List Nat × List (CharPtr × Nat))
  | [], _ => some ([], [])
  | .lit c :: fmt, args =>
    match formatted st fmt args with
    | none => none
    | some (out, reads) => some (c :: out, reads)
  | .s :: fmt, some a :: args =>
    match readText st a with
    | none => none
    | some s =>
      match formatted st fmt args with
      | none => none
      | some (out, reads) => some (s ++ out, (a, s.length + 1) :: reads)
  | .s :: _, _ => none

/-- The library function `sprintf` for formats made of text and `%s`, by its
contract in ISO C (7.21.6.6): the output and a terminator are written to
`dst`; copying between objects that overlap is undefined. -/
def sprintf (st : Mem) (dst : char_p) (fmt : List Fmt) (args : List char_p) : Option Mem :=
  match dst with
  | none => none
  | some d =>
    match formatted st fmt args with
    | none => none
    | some (out, reads) =>
      if reads.any (fun r => overlap d (out.length + 1) r.1 r.2) = true then none
      else storeBytes st d (out ++ [0])

/-! ## The functions of `t/ffi/string.c` -/

/-- Translation of `return !strcmp(value, "foobarbaz");`. -/
def string_matches_foobarbaz (st : Mem) (value : char_p) : Option (Mem × Int) :=
  match strcmp st value (some ⟨.lit_foobarbaz, 0⟩) with
  | none => none
  | some r => some (st, if r = 0 then 1 else 0)

/-- Translation of `return "foobarbaz";`. -/
def string_return_foobarbaz (st : Mem) : Option (Mem × char_p) :=
  some (st, some ⟨.lit_foobarbaz, 0⟩)

/-- Translation of `my_closure = closure;`. -/
def string_set_closure (st : Mem) (closure : closure_t) : Option (Mem × Unit) :=
  some ({ st with my_closure := closure }, ())

/-- Translation of `my_closure(value);`: calling a null function pointer is
undefined; a call is recorded in the trace. -/
def string_call_closure (st : Mem) (value : char_p) : Option (Mem × Unit) :=
  match st.my_closure with
  | none => none
  | some f => some ({ st with calls := st.calls ++ [(f, value)] }, ())

/-- Translation of `return *ptr;`. -/
def string_pointer_pointer_get (st : Mem) (ptr : char_pp) : Option (Mem × char_p) :=
  match ptr with
  | none => none
  | some pp =>
    match loadSlot st pp with
    | none => none
    | some v => some (st, v)

/-- Translation of `*ptr = value;`. -/
def string_pointer_pointer_set (st : Mem) (ptr : char_pp) (value : char_p) :
    Option (Mem × Unit) :=
  match ptr with
  | none => none
  | some pp =>
    match storeSlot st pp value with
    | none => none
    | some st1 => some (st1, ())

/-- Translation of `string_pointer_pointer_return`: for a non-null value
`strcpy(buffer, value); tmp = buffer;`, otherwise `tmp = value;`, then
`return &tmp;`. -/
def string_pointer_pointer_return (st : Mem) (value : char_p) : Option (Mem × char_pp) :=
  match value with
  | some v =>
    match strcpy st (some ⟨.pointer_pointer_return_buffer, 0⟩) (some v) with
    | none => none
    | some st1 =>
      let tmp : char_p := some ⟨.pointer_pointer_return_buffer, 0⟩
      some ({ st1 with slots := Function.update st1.slots .pointer_pointer_return_tmp tmp },
            some (.slot .pointer_pointer_return_tmp))
  | none =>
    some ({ st with slots := Function.update st.slots .pointer_pointer_return_tmp none },
          some (.slot .pointer_pointer_return_tmp))

/-- Translation of `return &buffer[i*5];`: forming an address outside the
array (before it, or beyond one past its end) is undefined. -/
def string_fixed_test (st : Mem) (i : Int) : Option (Mem × char_p) :=
  if 0 ≤ i * 5 ∧ i * 5 ≤ ((st.bytes .fixed_test_buffer).length : Int) then
    some (st, some ⟨.fixed_test_buffer, (i * 5).toNat⟩)
  else none

/-- Translation of `string_test_pointer_arg`: `return "arg==NULL";` for a null
`arg`; otherwise `sprintf(buffer, "*arg==NULL")` or
`sprintf(buffer, "*arg==%s", *arg)`, then `*arg = "out"; return buffer;`. -/
def string_test_pointer_arg (st : Mem) (arg : char_pp) : Option (Mem × char_p) :=
  match arg with
  | none => some (st, some ⟨.lit_arg_null, 0⟩)
  | some pp =>
    match loadSlot st pp with
    | none => none
    | some v =>
      let written :=
        match v with
        | none =>
          sprintf st (some ⟨.test_pointer_arg_buffer, 0⟩) (Fmt.ofText (cstr "*arg==NULL")) []
        | some t =>
          sprintf st (some ⟨.test_pointer_arg_buffer, 0⟩)
            (Fmt.ofText (cstr "*arg==") ++ [Fmt.s]) [some t]
      match written with
      | none => none
      | some st1 =>
        match storeSlot st1 pp (some ⟨.lit_out, 0⟩) with
        | none => none
        | some st2 => some (st2, some ⟨.test_pointer_arg_buffer, 0⟩)

/-- Translation of `string_test_pointer_ret`: `return &null;` for a null
argument, otherwise `sprintf(buffer, "%s", arg); return (char**) &buffer;`. -/
def string_test_pointer_ret (st : Mem) (arg : char_p) : Option (Mem × char_pp) :=
  match arg with
  | none => some (st, some (.slot .test_pointer_ret_null))
  | some a =>
    match sprintf st (some ⟨.test_pointer_ret_buffer, 0⟩) [Fmt.s] [some a] with
    | none => none
    | some st1 => some (st1, some (.chars ⟨.test_pointer_ret_buffer, 0⟩))

/-- The loop `while(src[i] != 0) { dst[i]=src[i]; i++; }` of
`string_write_to_string`, started at index `i`. It returns the memory and the
index at which the zero byte of the source was found. Each byte is read from
the current memory, so a source overlapping the destination is read as the
loop left it. The index is an `int`: incrementing it past `INT_MAX` is
undefined. `fuel` bounds the number of iterations. -/
def byteLoop : Nat → Mem → CharPtr → CharPtr → Nat → Option (Mem × Nat)
  | 0, _, _, _, _ => none
  | fuel + 1, st, dst, src, i =>
    match loadByte st (src.add i) with
    | none => none
    | some c =>
      if c = 0 then some (st, i)
      else
        match storeByte st (dst.add i) c with
        | none => none
        | some st1 =>
          if i + 1 ≤ INT_MAX then byteLoop fuel st1 dst src (i + 1)
          else none

/-- Iterations that always suffice for `byteLoop` on source `src`: every
iteration reads one more byte of the source object, whose size is fixed (see
`byteLoop_fuel`). -/
def loopFuel (st : Mem) (src : CharPtr) : Nat := (st.bytes src.block).length + 1

/-- Translation of `string_write_to_string`: the loop, then `dst[i]=0;`. -/
def string_write_to_string (st : Mem) (dst src : char_p) : Option (Mem × Unit) :=
  match dst, src with
  | some d, some s =>
    match byteLoop (loopFuel st s) st d s 0 with
    | none => none
    | some (st1, i) =>
      match storeByte st1 (d.add i) 0 with
      | none => none
      | some st2 => some (st2, ())
  | _, _ => none

/-! ## A caller: sequences of calls -/

/-- One call of a function of the file, with its arguments. -/
inductive Call
  | matches_foobarbaz (value : char_p)
  | return_foobarbaz
  | set_closure (closure : closure_t)
  | call_closure (value : char_p)
  | pointer_pointer_get (ptr : char_pp)
  | pointer_pointer_set (ptr : char_pp) (value : char_p)
  | pointer_pointer_return (value : char_p)
  | fixed_test (i : Int)
  | test_pointer_arg (arg : char_pp)
  | test_pointer_ret (arg : char_p)
  | write_to_string (dst src : char_p)

/-- Whether a call is a `string_write_to_string` whose destination lies in the
static buffer of `string_fixed_test` (the pointer that function returns, used
as a destination). -/
def Call.writesFixed : Call → Bool
  | .write_to_string (some d) _ => decide (d.block = Block.fixed_test_buffer)
  | _ => false

/-- Memory after one call (the returned value is dropped). -/
def exec (st : Mem) : Call → Option Mem
  | .matches_foobarbaz value => (string_matches_foobarbaz st value).map Prod.fst
  | .return_foobarbaz => (string_return_foobarbaz st).map Prod.fst
  | .set_closure closure => (string_set_closure st closure).map Prod.fst
  | .call_closure value => (string_call_closure st value).map Prod.fst
  | .pointer_pointer_get ptr => (string_pointer_pointer_get st ptr).map Prod.fst
  | .pointer_pointer_set ptr value => (string_pointer_pointer_set st ptr value).map Prod.fst
  | .pointer_pointer_return value => (string_pointer_pointer_return st value).map Prod.fst
  | .fixed_test i => (string_fixed_test st i).map Prod.fst
  | .test_pointer_arg arg => (string_test_pointer_arg st arg).map Prod.fst
  | .test_pointer_ret arg => (string_test_pointer_ret st arg).map Prod.fst
  | .write_to_string dst src => (string_write_to_string st dst src).map Prod.fst

/-- Memory after a sequence of calls; `none` as soon as one call is
undefined. -/
def run : Mem → List Call → Option Mem
  | st, [] => some st
  | st, c :: cs =>
    match exec st c with
    | none => none
    | some st1 => run st1 cs

/-! ## Auxiliary definitions for the proofs -/

/-- Replace the bytes of `l` from position `k` on by `xs`. -/
def splice (l : List Nat) (k : Nat) (xs : List Nat) : List Nat :=
  l.take k ++ xs ++ l.drop (k + xs.length)

/-- Memory in which the bytes of block `b` from offset `k` on are replaced by
`xs`; everything else is as in `st`. -/
def Mem.poke (st : Mem) (b : Block) (k : Nat) (xs : List Nat) : Mem :=
  { st with bytes := Function.update st.bytes b (splice (st.bytes b) k xs) }

/-- Memory in which slot `s` holds `v`; everything else is as in `st`. -/
def Mem.setSlot (st : Mem) (s : Slot) (v : char_p) : Mem :=
  { st with slots := Function.update st.slots s v }

/-- The read-only objects hold the same bytes in `st1` as in `st`, and every
object has the same size. -/
def Mem.SameLayout (st st1 : Mem) : Prop :=
  (∀ b : Block, b.writable = false → st1.bytes b = st.bytes b) ∧
  (∀ b : Block, (st1.bytes b).length = (st.bytes b).length)

/-! ## Concrete memories used as examples -/

/-- A caller memory with a few texts and buffers: block 0 holds "abc", block 1
"copy-me", block 2 is a 16-byte buffer, block 3 holds "foo", block 4 "hello",
block 5 "Foobarbaz"; slot 0 points at "abc", every other slot is null. -/
def exampleMem : Mem :=
  Mem.init
    (fun k =>
      if k = 0 then cstr "abc" ++ [0]
      else if k = 1 then cstr "copy-me" ++ [0]
      else if k = 2 then List.replicate 16 0
      else if k = 3 then cstr "foo" ++ [0]
      else if k = 4 then cstr "hello" ++ [0]
      else if k = 5 then cstr "Foobarbaz" ++ [0]
      else [])
    (fun k => if k = 0 then some ⟨.caller 0, 0⟩ else none)

/-- A caller memory whose block 0 holds a text of `n` bytes `a` and whose
block 1 is a buffer of `n + 1` bytes. -/
def longMem (n : Nat) : Mem :=
  Mem.init
    (fun k =>
      if k = 0 then List.replicate n 97 ++ [0]
      else if k = 1 then List.replicate (n + 1) 0
      else [])
    (fun _ => none)

/-- The memory reached from `exampleMem` by calling `string_test_pointer_arg`
on the null slot 1 and then storing the returned pointer in slot 1: the static
buffer of `string_test_pointer_arg` holds "*arg==NULL" and slot 1 points at
it. -/
def aliasMem : Mem :=
  (exampleMem.poke .test_pointer_arg_buffer 0 (cstr "*arg==NULL" ++ [0])).setSlot (.caller 1)
    (some ⟨.test_pointer_arg_buffer, 0⟩)

/-- The memory reached from `exampleMem` by `string_pointer_pointer_return`
on the text "hello" of block 4: the static buffer of the function holds
"hello" and its static `tmp` points at the buffer. -/
def helloMem : Mem :=
  (exampleMem.poke .pointer_pointer_return_buffer 0 (cstr "hello" ++ [0])).setSlot
    .pointer_pointer_return_tmp (some ⟨.pointer_pointer_return_buffer, 0⟩)

theorem textOf_zero (l : List Nat) : textOf (0 :: l) = some [] := by
  simp [textOf]

theorem textOf_cons {c : Nat} (hc : c ≠ 0) (l : List Nat) :
    textOf (c :: l) = (textOf l).map (fun t => c :: t) := by
  simp [textOf, hc]

theorem textOf_append (s r : List Nat) (hs : ∀ c ∈ s, c ≠ 0) :
    textOf (s ++ 0 :: r) = some s := by
  induction s with
  | nil => simp [textOf]
  | cons c t ih =>
    have hc : c ≠ 0 := hs c (by simp)
    have ht : ∀ d ∈ t, d ≠ 0 := fun d hd => hs d (by simp [hd])
    simp [textOf, hc, ih ht]

theorem textOf_some {l s : List Nat} (h : textOf l = some s) :
    (∀ c ∈ s, c ≠ 0) ∧ ∃ r, l = s ++ 0 :: r := by
  induction l generalizing s with
  | nil => simp [textOf] at h
  | cons c t ih =>
    by_cases hc : c = 0
    · subst hc
      simp [textOf] at h
      subst h
      exact ⟨by simp, t, by simp⟩
    · rw [textOf_cons hc] at h
      cases ht : textOf t with
      | none => simp [ht] at h
      | some u =>
        simp [ht] at h
        subst h
        obtain ⟨hu, r, hr⟩ := ih ht
        refine ⟨?_, r, by simp [hr]⟩
        intro d hd
        rcases List.mem_cons.mp hd with h1 | h1
        · exact h1 ▸ hc
        · exact hu d h1

theorem length_splice (l : List Nat) (k : Nat) (xs : List Nat) (h : k + xs.length ≤ l.length) :
    (splice l k xs).length = l.length := by
  simp [splice]
  omega

theorem splice_nil (l : List Nat) (k : Nat) : splice l k [] = l := by
  simp [splice]

theorem set_eq_splice (l : List Nat) (k c : Nat) (h : k < l.length) :
    l.set k c = splice l k [c] := by
  simp [splice, List.set_eq_take_append_cons_drop, h]

theorem splice_splice (l : List Nat) (k : Nat) (a b : List Nat) (h : k ≤ l.length) :
    splice (splice l k a) (k + a.length) b = splice l k (a ++ b) := by
  have h1 : (l.take k ++ a).length = k + a.length := by simp [h]
  unfold splice
  have e1 : List.take (k + a.length) (List.take k l ++ a ++ List.drop (k + a.length) l)
      = List.take k l ++ a := by
    rw [← h1, List.take_left]
  have e2 : List.drop (k + a.length + b.length)
      (List.take k l ++ a ++ List.drop (k + a.length) l)
      = List.drop (k + (a ++ b).length) l := by
    rw [List.drop_append_eq_append_drop, h1]
    have : List.drop (k + a.length + b.length) (List.take k l ++ a) = [] := by
      apply List.drop_eq_nil_of_le
      rw [h1]; omega
    rw [this]
    simp [List.drop_drop]
    congr 1
    omega
  rw [e1, e2]
  simp

theorem drop_splice_self (l : List Nat) (k : Nat) (xs : List Nat) (h : k ≤ l.length) :
    (splice l k xs).drop k = xs ++ l.drop (k + xs.length) := by
  have h1 : (l.take k).length = k := by simp [h]
  unfold splice
  rw [List.append_assoc, List.drop_append_eq_append_drop, h1]
  simp [List.drop_eq_nil_of_le, h1]

theorem drop_splice_of_le (l : List Nat) (k n : Nat) (xs : List Nat)
    (h : k + xs.length ≤ n) (hk : k ≤ l.length) :
    (splice l k xs).drop n = l.drop n := by
  have h1 : (l.take k ++ xs).length = k + xs.length := by simp [hk]
  unfold splice
  rw [List.drop_append_eq_append_drop, h1]
  have : List.drop n (List.take k l ++ xs) = [] := by
    apply List.drop_eq_nil_of_le
    rw [h1]; exact h
  rw [this]
  simp [List.drop_drop]
  congr 1
  omega

theorem textOf_drop_splice_after (l : List Nat) (n k : Nat) (xs t : List Nat)
    (ht : textOf (l.drop n) = some t) (h : n + t.length < k) :
    textOf ((splice l k xs).drop n) = some t := by
  obtain ⟨hz, r, hr⟩ := textOf_some ht
  have hlen : n + t.length + 1 + r.length = l.length := by
    have := congrArg List.length hr
    simp at this
    omega
  by_cases hk : k ≤ l.length
  · unfold splice
    rw [List.append_assoc, List.drop_append_of_le_length (by simp; omega), List.drop_take, hr]
    rw [List.take_append_eq_append_take]
    have e1 : List.take (k - n) t = t := List.take_of_length_le (by omega)
    rw [e1]
    have e2 : k - n - t.length = (k - n - t.length - 1) + 1 := by omega
    rw [e2, List.take_succ_cons, List.append_assoc]
    exact textOf_append t _ hz
  · have e1 : List.take k l = l := List.take_of_length_le (by omega)
    unfold splice
    rw [e1, List.append_assoc, List.drop_append_of_le_length (by omega), hr, List.append_assoc]
    exact textOf_append t _ hz

theorem getElem?_of_textOf_cons {l : List Nat} {n c : Nat} {t : List Nat}
    (h : textOf (l.drop n) = some (c :: t)) :
    l[n]? = some c ∧ c ≠ 0 ∧ textOf (l.drop (n + 1)) = some t := by
  obtain ⟨hz, r, hr⟩ := textOf_some h
  have h0 : l[n]? = some c := by
    have := congrArg (fun x => x[0]?) hr
    simpa [List.getElem?_drop] using this
  have h1 : l.drop (n + 1) = t ++ 0 :: r := by
    have := congrArg (List.drop 1) hr
    simpa [List.drop_drop] using this
  refine ⟨h0, hz c (by simp), ?_⟩
  rw [h1]
  exact textOf_append t r (fun d hd => hz d (by simp [hd]))

theorem getElem?_of_textOf_nil {l : List Nat} {n : Nat}
    (h : textOf (l.drop n) = some []) : l[n]? = some 0 := by
  obtain ⟨_, r, hr⟩ := textOf_some h
  have := congrArg (fun x => x[0]?) hr
  simpa [List.getElem?_drop] using this

theorem length_of_textOf_drop {l : List Nat} {n : Nat} {t : List Nat}
    (h : textOf (l.drop n) = some t) : n + t.length < l.length := by
  obtain ⟨_, r, hr⟩ := textOf_some h
  have := congrArg List.length hr
  simp at this
  omega

/-! ## Lemmas on memory updates and the copy loop -/

theorem poke_nil (st : Mem) (b : Block) (k : Nat) : st.poke b k [] = st := by
  simp [Mem.poke, splice_nil]

theorem poke_bytes_self (st : Mem) (b : Block) (k : Nat) (xs : List Nat) :
    (st.poke b k xs).bytes b = splice (st.bytes b) k xs := by
  simp [Mem.poke]

theorem poke_bytes_other (st : Mem) {b c : Block} (k : Nat) (xs : List Nat) (h : c ≠ b) :
    (st.poke b k xs).bytes c = st.bytes c := by
  simp [Mem.poke, Function.update_noteq h]

theorem poke_poke (st : Mem) (b : Block) (k : Nat) (xs ys : List Nat)
    (h : k ≤ (st.bytes b).length) :
    (st.poke b k xs).poke b (k + xs.length) ys = st.poke b k (xs ++ ys) := by
  simp [Mem.poke, splice_splice _ _ _ _ h]

theorem storeByte_eq (st : Mem) (b : Block) (k c : Nat) (hw : b.writable = true)
    (h : k < (st.bytes b).length) :
    storeByte st ⟨b, k⟩ c = some (st.poke b k [c]) := by
  simp [storeByte, hw, h, Mem.poke, set_eq_splice _ _ _ h]

/-- The copy loop on a source text `s` that the writes do not reach: it
stores `s` at the destination and stops at the terminator of the source. -/
theorem byteLoop_copy (bd bs : Block) (od os : Nat)
    (hw : bd.writable = true) :
    ∀ (s : List Nat) (fuel : Nat) (st : Mem) (i : Nat),
      textOf ((st.bytes bs).drop (os + i)) = some s →
      od + i + s.length ≤ (st.bytes bd).length →
      (bd ≠ bs ∨ od ≤ os ∨ os + i + s.length < od + i) →
      i + s.length ≤ INT_MAX →
      s.length < fuel →
      byteLoop fuel st ⟨bd, od⟩ ⟨bs, os⟩ i = some (st.poke bd (od + i) s, i + s.length) := by
  intro s
  induction s with
  | nil =>
    intro fuel st i ht _ _ _ hf
    obtain ⟨f, rfl⟩ : ∃ f, fuel = f + 1 := ⟨fuel - 1, by simp at hf; omega⟩
    have h0 := getElem?_of_textOf_nil ht
    simp [byteLoop, loadByte, CharPtr.add, h0, poke_nil]
  | cons c t ih =>
    intro fuel st i ht hcap hov hfit hf
    obtain ⟨f, rfl⟩ : ∃ f, fuel = f + 1 := ⟨fuel - 1, by simp at hf; omega⟩
    obtain ⟨h0, hc, ht1⟩ := getElem?_of_textOf_cons ht
    simp only [List.length_cons] at hcap hov hfit hf
    have hlt : od + i < (st.bytes bd).length := by omega
    have hstore := storeByte_eq st bd (od + i) c hw hlt
    have hfit1 : i + 1 ≤ INT_MAX := by omega
    have hsrc : textOf (((st.poke bd (od + i) [c]).bytes bs).drop (os + (i + 1))) = some t := by
      by_cases hb : bs = bd
      · subst hb
        rw [poke_bytes_self]
        rcases hov with h1 | h1 | h1
        · exact absurd rfl h1
        · rw [drop_splice_of_le _ _ _ _ (by simp; omega) (by omega)]
          exact ht1
        · exact textOf_drop_splice_after _ _ _ _ _ ht1 (by omega)
      · rw [poke_bytes_other _ _ _ hb]
        exact ht1
    have hcap1 : od + (i + 1) + t.length ≤ ((st.poke bd (od + i) [c]).bytes bd).length := by
      rw [poke_bytes_self, length_splice _ _ _ (by simp; omega)]
      omega
    have hov1 : bd ≠ bs ∨ od ≤ os ∨ os + (i + 1) + t.length < od + (i + 1) := by
      rcases hov with h1 | h1 | h1
      · exact Or.inl h1
      · exact Or.inr (Or.inl h1)
      · exact Or.inr (Or.inr (by omega))
    have hrec := ih f (st.poke bd (od + i) [c]) (i + 1) hsrc hcap1 hov1
      (by omega) (by omega)
    have hpp : (st.poke bd (od + i) [c]).poke bd (od + (i + 1)) t = st.poke bd (od + i) (c :: t) := by
      have := poke_poke st bd (od + i) [c] t (by omega)
      simpa [Nat.add_assoc] using this
    have hload : loadByte st (CharPtr.add ⟨bs, os⟩ i) = some c := by
      simpa [loadByte, CharPtr.add] using h0
    have hst : storeByte st (CharPtr.add ⟨bd, od⟩ i) c = some (st.poke bd (od + i) [c]) := by
      simpa [CharPtr.add] using hstore
    rw [byteLoop, hload]
    simp only [hc, if_false]
    rw [hst]
    simp only [hfit1, if_true]
    rw [hrec, hpp]
    simp [Nat.add_assoc, Nat.add_comm 1]

theorem readText_poke (st : Mem) (b : Block) (k : Nat) (s : List Nat)
    (hs : ∀ c ∈ s, c ≠ 0) (hk : k ≤ (st.bytes b).length) :
    readText (st.poke b k (s ++ [0])) ⟨b, k⟩ = some s := by
  simp only [readText, poke_bytes_self]
  rw [drop_splice_self _ _ _ hk, List.append_assoc]
  exact textOf_append s _ hs

theorem readText_poke_other (st : Mem) (b : Block) (k : Nat) (xs : List Nat) (p : CharPtr)
    (h : p.block ≠ b) : readText (st.poke b k xs) p = readText st p := by
  simp [readText, poke_bytes_other _ _ _ h]

theorem loadByte_poke (st : Mem) (b : Block) (k : Nat) (xs : List Nat) (j : Nat)
    (hk : k ≤ (st.bytes b).length) (hj : j < xs.length) :
    loadByte (st.poke b k xs) ⟨b, k + j⟩ = xs[j]? := by
  simp only [loadByte, poke_bytes_self]
  rw [← List.getElem?_drop, drop_splice_self _ _ _ hk, List.getElem?_append_left hj]

theorem storeBytes_eq (b : Block) (hw : b.writable = true) :
    ∀ (xs : List Nat) (st : Mem) (k : Nat), k + xs.length ≤ (st.bytes b).length →
      storeBytes st ⟨b, k⟩ xs = some (st.poke b k xs) := by
  intro xs
  induction xs with
  | nil => intro st k _; simp [storeBytes, poke_nil]
  | cons c t ih =>
    intro st k hk
    simp only [List.length_cons] at hk
    have hs := storeByte_eq st b k c hw (by omega)
    have hl : ((st.poke b k [c]).bytes b).length = (st.bytes b).length := by
      rw [poke_bytes_self, length_splice _ _ _ (by simp; omega)]
    have h1 := ih (st.poke b k [c]) (k + 1) (by rw [hl]; omega)
    have hp := poke_poke st b k [c] t (by omega)
    simp only [List.length_singleton, List.singleton_append] at hp
    rw [hp] at h1
    simp only [storeBytes, hs, CharPtr.add]
    exact h1

/-- The loop of `string_write_to_string` followed by the store of the
terminator. -/
theorem byteLoop_terminate (st : Mem) (d a : CharPtr) (s : List Nat)
    (hw : d.block.writable = true)
    (ht : readText st a = some s)
    (hcap : d.off + s.length < (st.bytes d.block).length)
    (hov : d.block ≠ a.block ∨ d.off ≤ a.off ∨ a.off + s.length < d.off)
    (hfit : s.length ≤ INT_MAX) :
    ∃ n st1, byteLoop (loopFuel st a) st d a 0 = some (st1, n) ∧
      storeByte st1 (d.add n) 0 = some (st.poke d.block d.off (s ++ [0])) := by
  obtain ⟨bd, od⟩ := d
  obtain ⟨bs, os⟩ := a
  simp only at hw hcap hov
  have hlen := length_of_textOf_drop ht
  simp only at hlen
  have h := byteLoop_copy bd bs od os hw s (loopFuel st ⟨bs, os⟩) st 0
    (by simpa [readText] using ht) (by omega)
    (by rcases hov with h1 | h1 | h1
        · exact Or.inl h1
        · exact Or.inr (Or.inl h1)
        · exact Or.inr (Or.inr (by omega)))
    (by simpa using hfit) (by simp [loopFuel]; omega)
  refine ⟨0 + s.length, st.poke bd (od + 0) s, h, ?_⟩
  have hl : ((st.poke bd od s).bytes bd).length = (st.bytes bd).length := by
    rw [poke_bytes_self, length_splice _ _ _ (by omega)]
  have := storeByte_eq (st.poke bd od s) bd (od + s.length) 0 hw (by rw [hl]; exact hcap)
  rw [poke_poke _ _ _ _ _ (by omega)] at this
  simpa [CharPtr.add] using this

theorem overlap_false {p q : CharPtr} {n k : Nat}
    (h : p.block ≠ q.block ∨ q.off + k ≤ p.off ∨ p.off + n ≤ q.off) :
    overlap p n q k = false := by
  simp only [overlap, decide_eq_false_iff_not]
  rintro ⟨h1, h2, h3⟩
  rcases h with h | h | h
  · exact h h1
  · omega
  · omega

theorem overlap_true {p q : CharPtr} {n k : Nat}
    (h1 : p.block = q.block) (h2 : p.off < q.off + k) (h3 : q.off < p.off + n) :
    overlap p n q k = true := by
  simp only [overlap, decide_eq_true_eq]
  exact ⟨h1, h2, h3⟩

/-- Result of `strcpy(d, a)` for a text `s` at `a` that the destination
does not overlap. -/
theorem strcpy_eq (st : Mem) (d a : CharPtr) (s : List Nat)
    (hw : d.block.writable = true)
    (ht : readText st a = some s)
    (hcap : d.off + s.length < (st.bytes d.block).length)
    (hov : d.block ≠ a.block ∨ a.off + (s.length + 1) ≤ d.off ∨
      d.off + (s.length + 1) ≤ a.off) :
    strcpy st (some d) (some a) = some (st.poke d.block d.off (s ++ [0])) := by
  have h := storeBytes_eq d.block hw (s ++ [0]) st d.off (by simp; omega)
  simp only [strcpy, ht, overlap_false hov]
  exact h

theorem formatted_text (st : Mem) (rest : List Fmt) (args : List char_p) (out : List Nat)
    (reads : List (CharPtr × Nat)) (h : formatted st rest args = some (out, reads)) :
    ∀ t : List Nat, formatted st (Fmt.ofText t ++ rest) args = some (t ++ out, reads) := by
  intro t
  induction t with
  | nil => simpa [Fmt.ofText] using h
  | cons c t ih =>
    have e : Fmt.ofText (c :: t) ++ rest = Fmt.lit c :: (Fmt.ofText t ++ rest) := rfl
    rw [e, formatted, ih]
    rfl

/-- Result of `sprintf(dst, "<t>")` for a format without conversions. -/
theorem sprintf_text (st : Mem) (d : CharPtr) (t : List Nat)
    (hw : d.block.writable = true) (hcap : d.off + t.length < (st.bytes d.block).length) :
    sprintf st (some d) (Fmt.ofText t) [] = some (st.poke d.block d.off (t ++ [0])) := by
  have hf := formatted_text st [] [] [] [] rfl t
  simp only [List.append_nil] at hf
  have h := storeBytes_eq d.block hw (t ++ [0]) st d.off (by simp; omega)
  simp only [sprintf, hf, List.any_nil]
  exact h

/-- Result of `sprintf(dst, "<t>%s", a)` for a text `s` at `a` that the
output does not overlap. -/
theorem sprintf_text_s (st : Mem) (d a : CharPtr) (t s : List Nat)
    (hw : d.block.writable = true)
    (ht : readText st a = some s)
    (hcap : d.off + t.length + s.length < (st.bytes d.block).length)
    (hov : d.block ≠ a.block ∨ a.off + (s.length + 1) ≤ d.off ∨
      d.off + (t.length + s.length + 1) ≤ a.off) :
    sprintf st (some d) (Fmt.ofText t ++ [Fmt.s]) [some a]
      = some (st.poke d.block d.off (t ++ s ++ [0])) := by
  have h0 : formatted st [Fmt.s] [some a] = some (s, [(a, s.length + 1)]) := by
    simp [formatted, ht]
  have hf := formatted_text st [Fmt.s] [some a] s _ h0 t
  have h := storeBytes_eq d.block hw (t ++ s ++ [0]) st d.off (by simp; omega)
  have hno : overlap d ((t ++ s).length + 1) a (s.length + 1) = false :=
    overlap_false (by
      rcases hov with h1 | h1 | h1
      · exact Or.inl h1
      · exact Or.inr (Or.inl h1)
      · exact Or.inr (Or.inr (by simp; omega)))
  simp only [sprintf, hf, List.any_cons, List.any_nil, hno, Bool.or_false]
  exact h

/-- No result of `sprintf(dst, "<t>%s", a)` when the text at `a` overlaps the
output. -/
theorem sprintf_text_s_overlap (st : Mem) (d a : CharPtr) (t s : List Nat)
    (ht : readText st a = some s)
    (hb : d.block = a.block) (h1 : d.off < a.off + (s.length + 1))
    (h2 : a.off < d.off + (t.length + s.length + 1)) :
    sprintf st (some d) (Fmt.ofText t ++ [Fmt.s]) [some a] = none := by
  have h0 : formatted st [Fmt.s] [some a] = some (s, [(a, s.length + 1)]) := by
    simp [formatted, ht]
  have hf := formatted_text st [Fmt.s] [some a] s _ h0 t
  have hyes : overlap d ((t ++ s).length + 1) a (s.length + 1) = true :=
    overlap_true hb h1 (by simp; omega)
  simp only [sprintf, hf, List.any_cons, List.any_nil, hyes, Bool.or_false]
  rfl

/-! ## Frame and layout lemmas -/

theorem wf_init (cbytes : Nat → List Nat) (cslots : Nat → char_p) :
    (Mem.init cbytes cslots).WF := by
  exact ⟨rfl, rfl, rfl, List.length_replicate _ _, List.length_replicate _ _,
    List.length_replicate _ _⟩

theorem wf_exampleMem : exampleMem.WF := wf_init _ _

theorem wf_poke (st : Mem) (hwf : st.WF) (b : Block) (k : Nat) (xs : List Nat)
    (hw : b.writable = true) (hk : k + xs.length ≤ (st.bytes b).length) :
    (st.poke b k xs).WF := by
  have hl : ∀ c : Block, ((st.poke b k xs).bytes c).length = (st.bytes c).length := by
    intro c
    by_cases hc : c = b
    · subst hc; rw [poke_bytes_self, length_splice _ _ _ hk]
    · rw [poke_bytes_other _ _ _ hc]
  have hro : ∀ c : Block, c.writable = false → (st.poke b k xs).bytes c = st.bytes c := by
    intro c hc
    apply poke_bytes_other
    intro h
    rw [h, hw] at hc
    exact Bool.noConfusion hc
  constructor
  · rw [hro .lit_foobarbaz rfl]; exact hwf.foobarbaz
  · rw [hro .lit_arg_null rfl]; exact hwf.arg_null
  · rw [hro .lit_out rfl]; exact hwf.out
  · rw [hl]; exact hwf.ppr_size
  · rw [hl]; exact hwf.tpa_size
  · rw [hl]; exact hwf.tpr_size

theorem wf_setSlot (st : Mem) (hwf : st.WF) (s : Slot) (v : char_p) : (st.setSlot s v).WF :=
  ⟨hwf.foobarbaz, hwf.arg_null, hwf.out, hwf.ppr_size, hwf.tpa_size, hwf.tpr_size⟩

theorem readText_lit_out (st : Mem) (hwf : st.WF) :
    readText st ⟨.lit_out, 0⟩ = some (cstr "out") := by
  simp only [readText, hwf.out, List.drop_zero]
  exact textOf_append _ _ (by decide)

theorem readText_lit_arg_null (st : Mem) (hwf : st.WF) :
    readText st ⟨.lit_arg_null, 0⟩ = some (cstr "arg==NULL") := by
  simp only [readText, hwf.arg_null, List.drop_zero]
  exact textOf_append _ _ (by decide)

theorem readText_lit_foobarbaz (st : Mem) (hwf : st.WF) :
    readText st ⟨.lit_foobarbaz, 0⟩ = some (cstr "foobarbaz") := by
  simp only [readText, hwf.foobarbaz, List.drop_zero]
  exact textOf_append _ _ (by decide)

theorem readText_setSlot (st : Mem) (s : Slot) (v : char_p) (p : CharPtr) :
    readText (st.setSlot s v) p = readText st p := rfl

/-! ## The functions, on inputs where they are defined -/

theorem string_write_to_string_eq (st : Mem) (dst src : CharPtr) (s : List Nat)
    (hsrc : readText st src = some s)
    (hlen : s.length ≤ INT_MAX)
    (hw : dst.block.writable = true)
    (hcap : dst.off + s.length < (st.bytes dst.block).length)
    (hov : dst.block ≠ src.block ∨ dst.off ≤ src.off ∨ src.off + s.length < dst.off) :
    string_write_to_string st (some dst) (some src)
      = some (st.poke dst.block dst.off (s ++ [0]), ()) := by
  obtain ⟨n, st1, h1, h2⟩ := byteLoop_terminate st dst src s hw hsrc hcap hov hlen
  simp [string_write_to_string, h1, h2]

theorem string_pointer_pointer_return_eq (st : Mem) (hwf : st.WF) (v : CharPtr) (s : List Nat)
    (hv : readText st v = some s) (hlen : s.length < 512)
    (hsep : v.block ≠ .pointer_pointer_return_buffer ∨ s.length < v.off) :
    string_pointer_pointer_return st (some v)
      = some (((st.poke .pointer_pointer_return_buffer 0 (s ++ [0])).setSlot
                .pointer_pointer_return_tmp (some ⟨.pointer_pointer_return_buffer, 0⟩)),
              some (.slot .pointer_pointer_return_tmp)) := by
  have h := strcpy_eq st ⟨.pointer_pointer_return_buffer, 0⟩ v s rfl hv
    (by simp only [hwf.ppr_size]; omega)
    (by rcases hsep with h1 | h1
        · exact Or.inl (fun e => h1 e.symm)
        · exact Or.inr (Or.inr (by simp only; omega)))
  simp only [string_pointer_pointer_return, h]
  rfl

theorem string_test_pointer_ret_eq (st : Mem) (hwf : st.WF) (a : CharPtr) (s : List Nat)
    (ha : readText st a = some s) (hlen : s.length < 512)
    (hsep : a.block ≠ .test_pointer_ret_buffer ∨ s.length < a.off) :
    string_test_pointer_ret st (some a)
      = some (st.poke .test_pointer_ret_buffer 0 (s ++ [0]),
              some (.chars ⟨.test_pointer_ret_buffer, 0⟩)) := by
  have h := sprintf_text_s st ⟨.test_pointer_ret_buffer, 0⟩ a [] s rfl ha
    (by simp only [hwf.tpr_size]; simp; omega)
    (by rcases hsep with h1 | h1
        · exact Or.inl (fun e => h1 e.symm)
        · exact Or.inr (Or.inr (by simp; omega)))
  simp only [Fmt.ofText, List.map_nil, List.nil_append] at h
  simp only [string_test_pointer_ret, h]

theorem string_test_pointer_arg_null_slot (st : Mem) (hwf : st.WF) (sl : Slot)
    (hsl : st.slots sl = none) :
    string_test_pointer_arg st (some (.slot sl))
      = some (((st.poke .test_pointer_arg_buffer 0 (cstr "*arg==NULL" ++ [0])).setSlot sl
                (some ⟨.lit_out, 0⟩)),
              some ⟨.test_pointer_arg_buffer, 0⟩) := by
  have h := sprintf_text st ⟨.test_pointer_arg_buffer, 0⟩ (cstr "*arg==NULL") rfl
    (by simp only [hwf.tpa_size]; decide)
  simp only [string_test_pointer_arg, loadSlot, hsl, h, storeSlot]
  rfl

theorem string_test_pointer_arg_text_slot (st : Mem) (hwf : st.WF) (sl : Slot) (v : CharPtr)
    (s : List Nat) (hsl : st.slots sl = some v) (hv : readText st v = some s)
    (hlen : s.length ≤ 505)
    (hsep : v.block ≠ .test_pointer_arg_buffer ∨ 6 + s.length < v.off) :
    string_test_pointer_arg st (some (.slot sl))
      = some (((st.poke .test_pointer_arg_buffer 0 (cstr "*arg==" ++ s ++ [0])).setSlot sl
                (some ⟨.lit_out, 0⟩)),
              some ⟨.test_pointer_arg_buffer, 0⟩) := by
  have h6 : (cstr "*arg==").length = 6 := by decide
  have h := sprintf_text_s st ⟨.test_pointer_arg_buffer, 0⟩ v (cstr "*arg==") s rfl hv
    (by simp only [hwf.tpa_size, h6]; omega)
    (by rcases hsep with h1 | h1
        · exact Or.inl (fun e => h1 e.symm)
        · exact Or.inr (Or.inr (by simp only [h6]; omega)))
  simp only [string_test_pointer_arg, loadSlot, hsl, h, storeSlot]
  rfl

theorem run_to_aliasMem :
    run exampleMem
        [.test_pointer_arg (some (.slot (.caller 1))),
         .pointer_pointer_set (some (.slot (.caller 1))) (some ⟨.test_pointer_arg_buffer, 0⟩)]
      = some aliasMem := by
  have h1 := string_test_pointer_arg_null_slot exampleMem wf_exampleMem (.caller 1) rfl
  simp only [run, exec, h1, Option.map, string_pointer_pointer_set, storeSlot]
  simp [aliasMem, Mem.setSlot, Mem.poke]

theorem run_to_helloMem :
    run exampleMem [.pointer_pointer_return (some ⟨.caller 4, 0⟩)] = some helloMem := by
  have h1 := string_pointer_pointer_return_eq exampleMem wf_exampleMem ⟨.caller 4, 0⟩
    (cstr "hello") (by decide) (by decide) (Or.inl (by decide))
  simp only [run, exec, h1, Option.map]
  rfl

theorem storeByte_some {st st1 : Mem} {p : CharPtr} {c : Nat} (h : storeByte st p c = some st1) :
    p.block.writable = true ∧ p.off < (st.bytes p.block).length ∧
      st1 = st.poke p.block p.off [c] := by
  unfold storeByte at h
  split at h
  · rename_i hc
    refine ⟨hc.1, hc.2, ?_⟩
    have := storeByte_eq st p.block p.off c hc.1 hc.2
    simp only [storeByte, hc, and_self, if_true] at this
    rw [← Option.some.inj h]
    exact Option.some.inj this
  · exact Option.noConfusion h

/-- The index cannot hold the length of the source: when every source byte
up to index `INT_MAX` is non-zero, the loop reaches the increment past
`INT_MAX`. -/
theorem byteLoop_overflow (bd bs : Block) (od os : Nat) (hne : bd ≠ bs) (src : List Nat)
    (hnz : ∀ j, j ≤ INT_MAX → ∀ c, src[os + j]? = some c → c ≠ 0) :
    ∀ (d fuel : Nat) (st : Mem) (i : Nat), i + d = INT_MAX → st.bytes bs = src →
      byteLoop fuel st ⟨bd, od⟩ ⟨bs, os⟩ i = none := by
  intro d
  induction d with
  | zero =>
    intro fuel st i hi hs
    cases fuel with
    | zero => rfl
    | succ f =>
      rw [byteLoop]
      cases hl : loadByte st (CharPtr.add ⟨bs, os⟩ i) with
      | none => rfl
      | some c =>
        have hc : c ≠ 0 := hnz i (by omega) c (by simpa [loadByte, CharPtr.add, hs] using hl)
        simp only [hc, if_false]
        cases hst : storeByte st (CharPtr.add ⟨bd, od⟩ i) c with
        | none => rfl
        | some st1 =>
          have : ¬ (i + 1 ≤ INT_MAX) := by omega
          simp [this]
  | succ d ih =>
    intro fuel st i hi hs
    cases fuel with
    | zero => rfl
    | succ f =>
      rw [byteLoop]
      cases hl : loadByte st (CharPtr.add ⟨bs, os⟩ i) with
      | none => rfl
      | some c =>
        have hc : c ≠ 0 := hnz i (by omega) c (by simpa [loadByte, CharPtr.add, hs] using hl)
        simp only [hc, if_false]
        cases hst : storeByte st (CharPtr.add ⟨bd, od⟩ i) c with
        | none => rfl
        | some st1 =>
          obtain ⟨_, _, h1⟩ := storeByte_some hst
          have hs1 : st1.bytes bs = src := by
            rw [h1]
            simp only [CharPtr.add]
            rw [poke_bytes_other _ _ _ (fun e => hne e.symm)]
            exact hs
          simp only
          split
          · exact ih f st1 (i + 1) (by omega) hs1
          · rfl

/-! ## What no call can change -/

theorem sameLayout_refl (st : Mem) : st.SameLayout st :=
  ⟨fun _ _ => rfl, fun _ => rfl⟩

theorem sameLayout_trans {a b c : Mem} (h1 : a.SameLayout b) (h2 : b.SameLayout c) :
    a.SameLayout c :=
  ⟨fun x hx => (h2.1 x hx).trans (h1.1 x hx), fun x => (h2.2 x).trans (h1.2 x)⟩

theorem sameLayout_of_bytes {a b : Mem} (h : b.bytes = a.bytes) : a.SameLayout b :=
  ⟨fun x _ => by rw [h], fun x => by rw [h]⟩

theorem storeByte_sameLayout {st st1 : Mem} {p : CharPtr} {c : Nat}
    (h : storeByte st p c = some st1) : st.SameLayout st1 := by
  obtain ⟨hw, hlen, rfl⟩ := storeByte_some h
  constructor
  · intro b hb
    apply poke_bytes_other
    intro e
    rw [e, hw] at hb
    exact Bool.noConfusion hb
  · intro b
    by_cases hb : b = p.block
    · subst hb
      rw [poke_bytes_self, length_splice _ _ _ (by simp; omega)]
    · rw [poke_bytes_other _ _ _ hb]

theorem byteLoop_sameLayout (d a : CharPtr) :
    ∀ (fuel : Nat) (st : Mem) (i : Nat) (st1 : Mem) (n : Nat),
      byteLoop fuel st d a i = some (st1, n) → st.SameLayout st1 := by
  intro fuel
  induction fuel with
  | zero => intro st i st1 n h; exact Option.noConfusion h
  | succ f ih =>
    intro st i st1 n h
    rw [byteLoop] at h
    cases hl : loadByte st (a.add i) with
    | none => rw [hl] at h; exact Option.noConfusion h
    | some c =>
      rw [hl] at h
      simp only at h
      split at h
      · rw [(Prod.mk.inj (Option.some.inj h)).1]
        exact sameLayout_refl _
      · cases hs : storeByte st (d.add i) c with
        | none => rw [hs] at h; exact Option.noConfusion h
        | some st2 =>
          rw [hs] at h
          simp only at h
          split at h
          · exact sameLayout_trans (storeByte_sameLayout hs) (ih st2 (i + 1) st1 n h)
          · exact Option.noConfusion h

theorem storeBytes_sameLayout :
    ∀ (cs : List Nat) (st : Mem) (p : CharPtr) (st1 : Mem),
      storeBytes st p cs = some st1 → st.SameLayout st1 := by
  intro cs
  induction cs with
  | nil =>
    intro st p st1 h
    rw [storeBytes] at h
    rw [← Option.some.inj h]
    exact sameLayout_refl _
  | cons c cs ih =>
    intro st p st1 h
    rw [storeBytes] at h
    cases hs : storeByte st p c with
    | none => rw [hs] at h; exact Option.noConfusion h
    | some st2 =>
      rw [hs] at h
      exact sameLayout_trans (storeByte_sameLayout hs) (ih st2 _ st1 h)

theorem strcpy_sameLayout {st st1 : Mem} {d a : char_p} (h : strcpy st d a = some st1) :
    st.SameLayout st1 := by
  unfold strcpy at h
  split at h
  · split at h
    · exact Option.noConfusion h
    · split at h
      · exact Option.noConfusion h
      · exact storeBytes_sameLayout _ _ _ _ h
  · exact Option.noConfusion h

theorem sprintf_sameLayout {st st1 : Mem} {d : char_p} {fmt : List Fmt} {args : List char_p}
    (h : sprintf st d fmt args = some st1) : st.SameLayout st1 := by
  unfold sprintf at h
  split at h
  · exact Option.noConfusion h
  · split at h
    · exact Option.noConfusion h
    · split at h
      · exact Option.noConfusion h
      · exact storeBytes_sameLayout _ _ _ _ h

theorem exec_sameLayout (st st1 : Mem) (c : Call) (h : exec st c = some st1) :
    st.SameLayout st1 := by
  cases c with
  | matches_foobarbaz value =>
    simp only [exec, string_matches_foobarbaz] at h
    cases hs : strcmp st value (some ⟨.lit_foobarbaz, 0⟩) with
    | none => simp [hs] at h
    | some r => simp [hs] at h; rw [← h]; exact sameLayout_refl _
  | return_foobarbaz =>
    simp [exec, string_return_foobarbaz] at h
    rw [← h]; exact sameLayout_refl _
  | set_closure closure =>
    simp [exec, string_set_closure] at h
    rw [← h]; exact sameLayout_of_bytes rfl
  | call_closure value =>
    simp only [exec, string_call_closure] at h
    cases hc : st.my_closure with
    | none => simp [hc] at h
    | some f => simp [hc] at h; rw [← h]; exact sameLayout_of_bytes rfl
  | pointer_pointer_get ptr =>
    simp only [exec, string_pointer_pointer_get] at h
    cases ptr with
    | none => simp at h
    | some pp =>
      cases hl : loadSlot st pp with
      | none => simp [hl] at h
      | some v => simp [hl] at h; rw [← h]; exact sameLayout_refl _
  | pointer_pointer_set ptr value =>
    simp only [exec, string_pointer_pointer_set] at h
    cases ptr with
    | none => simp at h
    | some pp =>
      cases pp with
      | slot s => simp [storeSlot] at h; rw [← h]; exact sameLayout_of_bytes rfl
      | chars p => simp [storeSlot] at h
  | pointer_pointer_return value =>
    simp only [exec, string_pointer_pointer_return] at h
    cases value with
    | none => simp at h; rw [← h]; exact sameLayout_of_bytes rfl
    | some v =>
      cases hs : strcpy st (some ⟨.pointer_pointer_return_buffer, 0⟩) (some v) with
      | none => simp [hs] at h
      | some st2 =>
        simp [hs] at h
        rw [← h]
        exact sameLayout_trans (strcpy_sameLayout hs) (sameLayout_of_bytes rfl)
  | fixed_test i =>
    simp only [exec, string_fixed_test] at h
    split at h
    · simp at h; rw [← h]; exact sameLayout_refl _
    · simp at h
  | test_pointer_arg arg =>
    simp only [exec, string_test_pointer_arg] at h
    cases arg with
    | none => simp at h; rw [← h]; exact sameLayout_refl _
    | some pp =>
      cases pp with
      | chars p => simp [loadSlot] at h
      | slot s =>
        simp only [loadSlot, storeSlot] at h
        cases hv : st.slots s with
        | none =>
          simp only [hv] at h
          cases hf : sprintf st (some ⟨.test_pointer_arg_buffer, 0⟩)
              (Fmt.ofText (cstr "*arg==NULL")) [] with
          | none => simp [hf] at h
          | some st2 =>
            simp [hf] at h
            rw [← h]
            exact sameLayout_trans (sprintf_sameLayout hf) (sameLayout_of_bytes rfl)
        | some t =>
          simp only [hv] at h
          cases hf : sprintf st (some ⟨.test_pointer_arg_buffer, 0⟩)
              (Fmt.ofText (cstr "*arg==") ++ [Fmt.s]) [some t] with
          | none => simp [hf] at h
          | some st2 =>
            simp [hf] at h
            rw [← h]
            exact sameLayout_trans (sprintf_sameLayout hf) (sameLayout_of_bytes rfl)
  | test_pointer_ret arg =>
    simp only [exec, string_test_pointer_ret] at h
    cases arg with
    | none => simp at h; rw [← h]; exact sameLayout_refl _
    | some a =>
      cases hf : sprintf st (some ⟨.test_pointer_ret_buffer, 0⟩) [Fmt.s] [some a] with
      | none => simp [hf] at h
      | some st2 => simp [hf] at h; rw [← h]; exact sameLayout_trans (sprintf_sameLayout hf) (sameLayout_refl _)
  | write_to_string dst src =>
    simp only [exec, string_write_to_string] at h
    cases dst with
    | none => simp at h
    | some d =>
      cases src with
      | none => simp at h
      | some a =>
        simp only at h
        cases hb : byteLoop (loopFuel st a) st d a 0 with
        | none => simp [hb] at h
        | some r =>
          obtain ⟨st2, n⟩ := r
          simp only [hb] at h
          cases hs : storeByte st2 (d.add n) 0 with
          | none => simp [hs] at h
          | some st3 =>
            simp [hs] at h
            rw [← h]
            exact sameLayout_trans (byteLoop_sameLayout _ _ _ _ _ _ _ hb)
              (storeByte_sameLayout hs)

theorem run_sameLayout : ∀ (calls : List Call) (st st1 : Mem),
    run st calls = some st1 → st.SameLayout st1 := by
  intro calls
  induction calls with
  | nil =>
    intro st st1 h
    rw [run] at h
    rw [← Option.some.inj h]
    exact sameLayout_refl _
  | cons c cs ih =>
    intro st st1 h
    rw [run] at h
    cases he : exec st c with
    | none => rw [he] at h; exact Option.noConfusion h
    | some st2 =>
      rw [he] at h
      exact sameLayout_trans (exec_sameLayout st st2 c he) (ih st2 st1 h)

theorem wf_of_sameLayout {st st1 : Mem} (hwf : st.WF) (h : st.SameLayout st1) : st1.WF := by
  constructor
  · rw [h.1 .lit_foobarbaz rfl]; exact hwf.foobarbaz
  · rw [h.1 .lit_arg_null rfl]; exact hwf.arg_null
  · rw [h.1 .lit_out rfl]; exact hwf.out
  · rw [h.2]; exact hwf.ppr_size
  · rw [h.2]; exact hwf.tpa_size
  · rw [h.2]; exact hwf.tpr_size

/-- Every memory reached from a program start by calls of the file's
functions is well formed. -/
theorem wf_reachable (cbytes : Nat → List Nat) (cslots : Nat → char_p) (calls : List Call)
    (st : Mem) (h : run (Mem.init cbytes cslots) calls = some st) : st.WF :=
  wf_of_sameLayout (wf_init cbytes cslots) (run_sameLayout calls _ _ h)

/-! ## Calls that leave the static buffer of `string_fixed_test` alone -/

theorem storeByte_other {st st1 : Mem} {p : CharPtr} {c : Nat} {b : Block}
    (h : storeByte st p c = some st1) (hb : p.block ≠ b) : st1.bytes b = st.bytes b := by
  obtain ⟨_, _, rfl⟩ := storeByte_some h
  exact poke_bytes_other _ _ _ (fun e => hb e.symm)

theorem storeBytes_other (b : Block) :
    ∀ (cs : List Nat) (st : Mem) (p : CharPtr) (st1 : Mem),
      storeBytes st p cs = some st1 → p.block ≠ b → st1.bytes b = st.bytes b := by
  intro cs
  induction cs with
  | nil =>
    intro st p st1 h _
    rw [storeBytes] at h
    rw [← Option.some.inj h]
  | cons c cs ih =>
    intro st p st1 h hb
    rw [storeBytes] at h
    cases hs : storeByte st p c with
    | none => rw [hs] at h; exact Option.noConfusion h
    | some st2 =>
      rw [hs] at h
      rw [ih st2 (p.add 1) st1 h hb, storeByte_other hs hb]

theorem byteLoop_other (b : Block) (d a : CharPtr) (hb : d.block ≠ b) :
    ∀ (fuel : Nat) (st : Mem) (i : Nat) (st1 : Mem) (n : Nat),
      byteLoop fuel st d a i = some (st1, n) → st1.bytes b = st.bytes b := by
  intro fuel
  induction fuel with
  | zero => intro st i st1 n h; exact Option.noConfusion h
  | succ f ih =>
    intro st i st1 n h
    rw [byteLoop] at h
    cases hl : loadByte st (a.add i) with
    | none => rw [hl] at h; exact Option.noConfusion h
    | some c =>
      rw [hl] at h
      simp only at h
      split at h
      · rw [(Prod.mk.inj (Option.some.inj h)).1]
      · cases hs : storeByte st (d.add i) c with
        | none => rw [hs] at h; exact Option.noConfusion h
        | some st2 =>
          rw [hs] at h
          simp only at h
          split at h
          · rw [ih st2 (i + 1) st1 n h, storeByte_other hs hb]
          · exact Option.noConfusion h

theorem strcpy_other {st st1 : Mem} {d : CharPtr} {a : char_p} {b : Block}
    (h : strcpy st (some d) a = some st1) (hb : d.block ≠ b) : st1.bytes b = st.bytes b := by
  cases a with
  | none => exact Option.noConfusion h
  | some a =>
    simp only [strcpy] at h
    split at h
    · exact Option.noConfusion h
    · split at h
      · exact Option.noConfusion h
      · exact storeBytes_other b _ _ _ _ h hb

theorem sprintf_other {st st1 : Mem} {d : CharPtr} {fmt : List Fmt} {args : List char_p}
    {b : Block} (h : sprintf st (some d) fmt args = some st1) (hb : d.block ≠ b) :
    st1.bytes b = st.bytes b := by
  unfold sprintf at h
  simp only at h
  split at h
  · exact Option.noConfusion h
  · split at h
    · exact Option.noConfusion h
    · exact storeBytes_other b _ _ _ _ h hb

/-- A call other than a `string_write_to_string` into the static buffer of
`string_fixed_test` leaves that buffer as it was. -/
theorem exec_fixed_test_buffer (st st1 : Mem) (c : Call) (h : exec st c = some st1)
    (hc : c.writesFixed = false) :
    st1.bytes .fixed_test_buffer = st.bytes .fixed_test_buffer := by
  cases c with
  | matches_foobarbaz value =>
    simp only [exec, string_matches_foobarbaz] at h
    cases hs : strcmp st value (some ⟨.lit_foobarbaz, 0⟩) with
    | none => simp [hs] at h
    | some r => simp [hs] at h; rw [← h]
  | return_foobarbaz =>
    simp [exec, string_return_foobarbaz] at h
    rw [← h]
  | set_closure closure =>
    simp [exec, string_set_closure] at h
    rw [← h]
  | call_closure value =>
    simp only [exec, string_call_closure] at h
    cases hm : st.my_closure with
    | none => simp [hm] at h
    | some f => simp [hm] at h; rw [← h]
  | pointer_pointer_get ptr =>
    simp only [exec, string_pointer_pointer_get] at h
    cases ptr with
    | none => simp at h
    | some pp =>
      cases hl : loadSlot st pp with
      | none => simp [hl] at h
      | some v => simp [hl] at h; rw [← h]
  | pointer_pointer_set ptr value =>
    simp only [exec, string_pointer_pointer_set] at h
    cases ptr with
    | none => simp at h
    | some pp =>
      cases pp with
      | slot s => simp [storeSlot] at h; rw [← h]
      | chars p => simp [storeSlot] at h
  | pointer_pointer_return value =>
    simp only [exec, string_pointer_pointer_return] at h
    cases value with
    | none => simp at h; rw [← h]
    | some v =>
      cases hs : strcpy st (some ⟨.pointer_pointer_return_buffer, 0⟩) (some v) with
      | none => simp [hs] at h
      | some st2 =>
        simp [hs] at h
        rw [← h]
        exact (strcpy_other hs (by decide) : st2.bytes .fixed_test_buffer = st.bytes .fixed_test_buffer)
  | fixed_test i =>
    simp only [exec, string_fixed_test] at h
    split at h
    · simp at h; rw [← h]
    · simp at h
  | test_pointer_arg arg =>
    simp only [exec, string_test_pointer_arg] at h
    cases arg with
    | none => simp at h; rw [← h]
    | some pp =>
      cases pp with
      | chars p => simp [loadSlot] at h
      | slot s =>
        simp only [loadSlot, storeSlot] at h
        cases hv : st.slots s with
        | none =>
          simp only [hv] at h
          cases hf : sprintf st (some ⟨.test_pointer_arg_buffer, 0⟩)
              (Fmt.ofText (cstr "*arg==NULL")) [] with
          | none => simp [hf] at h
          | some st2 =>
            simp [hf] at h
            rw [← h]
            exact (sprintf_other hf (by decide) : st2.bytes .fixed_test_buffer = st.bytes .fixed_test_buffer)
        | some t =>
          simp only [hv] at h
          cases hf : sprintf st (some ⟨.test_pointer_arg_buffer, 0⟩)
              (Fmt.ofText (cstr "*arg==") ++ [Fmt.s]) [some t] with
          | none => simp [hf] at h
          | some st2 =>
            simp [hf] at h
            rw [← h]
            exact (sprintf_other hf (by decide) : st2.bytes .fixed_test_buffer = st.bytes .fixed_test_buffer)
  | test_pointer_ret arg =>
    simp only [exec, string_test_pointer_ret] at h
    cases arg with
    | none => simp at h; rw [← h]
    | some a =>
      cases hf : sprintf st (some ⟨.test_pointer_ret_buffer, 0⟩) [Fmt.s] [some a] with
      | none => simp [hf] at h
      | some st2 =>
        simp [hf] at h
        rw [← h]
        exact (sprintf_other hf (by decide) : st2.bytes .fixed_test_buffer = st.bytes .fixed_test_buffer)
  | write_to_string dst src =>
    simp only [exec, string_write_to_string] at h
    cases dst with
    | none => simp at h
    | some d =>
      have hd : d.block ≠ .fixed_test_buffer := by
        simpa [Call.writesFixed] using hc
      cases src with
      | none => simp at h
      | some a =>
        simp only at h
        cases hb : byteLoop (loopFuel st a) st d a 0 with
        | none => simp [hb] at h
        | some r =>
          obtain ⟨st2, n⟩ := r
          simp only [hb] at h
          cases hs : storeByte st2 (d.add n) 0 with
          | none => simp [hs] at h
          | some st3 =>
            simp [hs] at h
            rw [← h, storeByte_other hs (by simpa [CharPtr.add] using hd),
              byteLoop_other _ d a hd _ _ _ _ _ hb]

/-- The static buffer of `string_fixed_test` holds its initial text at
program start and after every sequence of calls none of which is a
`string_write_to_string` into that buffer. -/
theorem fixed_test_buffer_reachable (cbytes : Nat → List Nat) (cslots : Nat → char_p) :
    ∀ (calls : List Call) (st0 st : Mem),
      st0.bytes .fixed_test_buffer = (Mem.init cbytes cslots).bytes .fixed_test_buffer →
      run st0 calls = some st → (∀ c ∈ calls, c.writesFixed = false) →
      st.bytes .fixed_test_buffer = fixed_test_init := by
  intro calls
  induction calls with
  | nil =>
    intro st0 st h0 h _
    rw [run] at h
    rw [← Option.some.inj h, h0]
    rfl
  | cons c cs ih =>
    intro st0 st h0 h hall
    rw [run] at h
    cases he : exec st0 c with
    | none => rw [he] at h; exact Option.noConfusion h
    | some st1 =>
      rw [he] at h
      have h1 := exec_fixed_test_buffer st0 st1 c he (hall c (by simp))
      exact ih st1 st (by rw [h1, h0]) h (fun x hx => hall x (by simp [hx]))

/-! ## The iteration bound is never what stops the loop -/

/-- With more iterations allowed than the source object has bytes left, the
result of the copy loop does not depend on the bound: a run without result
has met an access outside an object, a write to a literal, or an index that
does not fit. -/
theorem byteLoop_fuel (d a : CharPtr) :
    ∀ (fuel : Nat) (st : Mem) (i k : Nat),
      (st.bytes a.block).length < a.off + i + fuel →
      byteLoop (fuel + k) st d a i = byteLoop fuel st d a i := by
  intro fuel
  induction fuel with
  | zero =>
    intro st i k h
    have hl : loadByte st (a.add i) = none := by
      simp only [loadByte, CharPtr.add]
      exact List.getElem?_eq_none (by omega)
    cases k with
    | zero => rfl
    | succ k => simp only [Nat.zero_add, byteLoop, hl]
  | succ f ih =>
    intro st i k h
    rw [show f + 1 + k = (f + k) + 1 by omega, byteLoop, byteLoop]
    cases hl : loadByte st (a.add i) with
    | none => rfl
    | some c =>
      simp only
      split
      · rfl
      · cases hs : storeByte st (d.add i) c with
        | none => rfl
        | some st1 =>
          simp only
          have hlen : (st1.bytes a.block).length = (st.bytes a.block).length :=
            (storeByte_sameLayout hs).2 _
          split
          · exact ih st1 (i + 1) k (by rw [hlen]; omega)
          · rfl

theorem loopFuel_enough (st : Mem) (d a : CharPtr) (k : Nat) :
    byteLoop (loopFuel st a + k) st d a 0 = byteLoop (loopFuel st a) st d a 0 :=
  byteLoop_fuel d a _ st 0 k (by simp only [loopFuel]; omega)

/-! ## `string_test_pointer_arg` -/

/-- C1 (amended): `string_test_pointer_arg`. (1) For a null `arg` the result
is the literal "arg==NULL" and the memory is unchanged. (2) For `arg`
referencing a null slot the result is the static buffer holding "*arg==NULL"
and the slot then points at the literal "out". (3) For `arg` referencing a
slot that holds a text `s` of at most 505 bytes which does not overlap the
bytes the call writes to its static buffer (a text in any other object, or
behind byte `6 + |s|` of the buffer), the result is the static buffer holding
"*arg==" followed by `s`, and the slot then points at the literal "out". -/
theorem string_test_pointer_arg_contract (st : Mem) (hwf : st.WF) :
    (string_test_pointer_arg st none = some (st, some ⟨.lit_arg_null, 0⟩) ∧
      readText st ⟨.lit_arg_null, 0⟩ = some (cstr "arg==NULL")) ∧
    (∀ sl : Slot, st.slots sl = none →
      ∃ st1, string_test_pointer_arg st (some (.slot sl))
          = some (st1, some ⟨.test_pointer_arg_buffer, 0⟩) ∧
        readText st1 ⟨.test_pointer_arg_buffer, 0⟩ = some (cstr "*arg==NULL") ∧
        st1.slots sl = some ⟨.lit_out, 0⟩ ∧
        readText st1 ⟨.lit_out, 0⟩ = some (cstr "out")) ∧
    (∀ (sl : Slot) (v : CharPtr) (s : List Nat),
      st.slots sl = some v → readText st v = some s → s.length ≤ 505 →
      (v.block ≠ .test_pointer_arg_buffer ∨ 6 + s.length < v.off) →
      ∃ st1, string_test_pointer_arg st (some (.slot sl))
          = some (st1, some ⟨.test_pointer_arg_buffer, 0⟩) ∧
        readText st1 ⟨.test_pointer_arg_buffer, 0⟩ = some (cstr "*arg==" ++ s) ∧
        st1.slots sl = some ⟨.lit_out, 0⟩ ∧
        readText st1 ⟨.lit_out, 0⟩ = some (cstr "out")) := by
  refine ⟨⟨rfl, readText_lit_arg_null st hwf⟩, ?_, ?_⟩
  · intro sl hsl
    refine ⟨_, string_test_pointer_arg_null_slot st hwf sl hsl, ?_, ?_, ?_⟩
    · rw [readText_setSlot]
      exact readText_poke st _ 0 _ (by decide) (Nat.zero_le _)
    · simp [Mem.setSlot]
    · rw [readText_setSlot, readText_poke_other _ _ _ _ _ (by decide)]
      exact readText_lit_out st hwf
  · intro sl v s hsl hv hlen hsep
    refine ⟨_, string_test_pointer_arg_text_slot st hwf sl v s hsl hv hlen hsep, ?_, ?_, ?_⟩
    · rw [readText_setSlot]
      apply readText_poke st _ 0 _ _ (Nat.zero_le _)
      intro c hc
      rcases List.mem_append.mp hc with h1 | h1
      · exact (by decide : ∀ c ∈ cstr "*arg==", c ≠ 0) c h1
      · exact (textOf_some hv).1 c h1
    · simp [Mem.setSlot]
    · rw [readText_setSlot, readText_poke_other _ _ _ _ _ (by decide)]
      exact readText_lit_out st hwf

/-- Witness for C1: in `exampleMem` slot 0 holds "abc" and slot 1 is null. -/
theorem string_test_pointer_arg_contract_witness :
    (string_test_pointer_arg exampleMem none = some (exampleMem, some ⟨.lit_arg_null, 0⟩) ∧
      readText exampleMem ⟨.lit_arg_null, 0⟩ = some (cstr "arg==NULL")) ∧
    (∃ st1, string_test_pointer_arg exampleMem (some (.slot (.caller 1)))
          = some (st1, some ⟨.test_pointer_arg_buffer, 0⟩) ∧
        readText st1 ⟨.test_pointer_arg_buffer, 0⟩ = some (cstr "*arg==NULL") ∧
        st1.slots (.caller 1) = some ⟨.lit_out, 0⟩ ∧
        readText st1 ⟨.lit_out, 0⟩ = some (cstr "out")) ∧
    (∃ st1, string_test_pointer_arg exampleMem (some (.slot (.caller 0)))
          = some (st1, some ⟨.test_pointer_arg_buffer, 0⟩) ∧
        readText st1 ⟨.test_pointer_arg_buffer, 0⟩ = some (cstr "*arg==abc") ∧
        st1.slots (.caller 0) = some ⟨.lit_out, 0⟩ ∧
        readText st1 ⟨.lit_out, 0⟩ = some (cstr "out")) :=
  have h := string_test_pointer_arg_contract exampleMem wf_exampleMem
  ⟨h.1, h.2.1 (.caller 1) rfl,
    h.2.2 (.caller 0) ⟨.caller 0, 0⟩ (cstr "abc") rfl (by decide) (by decide)
      (Or.inl (by decide))⟩

/-- C1 (as stated, refuted): after `string_test_pointer_arg` was called on the
null slot 1 of `exampleMem` and the pointer it returned was stored in slot 1,
the slot holds the text "*arg==NULL" of 10 bytes, which lies in the function's
own static buffer; the next call on slot 1 is
`sprintf(buffer, "*arg==%s", buffer)`, a copy between overlapping objects,
and has no defined result. -/
theorem string_test_pointer_arg_own_buffer :
    run exampleMem
        [.test_pointer_arg (some (.slot (.caller 1))),
         .pointer_pointer_set (some (.slot (.caller 1))) (some ⟨.test_pointer_arg_buffer, 0⟩)]
      = some aliasMem ∧
    aliasMem.slots (.caller 1) = some ⟨.test_pointer_arg_buffer, 0⟩ ∧
    readText aliasMem ⟨.test_pointer_arg_buffer, 0⟩ = some (cstr "*arg==NULL") ∧
    (cstr "*arg==NULL").length ≤ 505 ∧
    string_test_pointer_arg aliasMem (some (.slot (.caller 1))) = none := by
  have hs : aliasMem.slots (.caller 1) = some ⟨.test_pointer_arg_buffer, 0⟩ := by
    simp [aliasMem, Mem.setSlot]
  have ht : readText aliasMem ⟨.test_pointer_arg_buffer, 0⟩ = some (cstr "*arg==NULL") := by
    show readText (exampleMem.poke .test_pointer_arg_buffer 0 (cstr "*arg==NULL" ++ [0])) _ = _
    exact readText_poke _ _ 0 _ (by decide) (Nat.zero_le _)
  refine ⟨run_to_aliasMem, hs, ht, by decide, ?_⟩
  have hf := sprintf_text_s_overlap aliasMem ⟨.test_pointer_arg_buffer, 0⟩
    ⟨.test_pointer_arg_buffer, 0⟩ (cstr "*arg==") (cstr "*arg==NULL") ht rfl
    (by decide) (by decide)
  simp only [string_test_pointer_arg, loadSlot, hs, hf]

/-! ## `string_write_to_string` -/

/-- C2 (amended): `string_write_to_string(dst, src)`. For every source text
of length `n` at most `INT_MAX` and every writable destination with room for
`n + 1` bytes that does not overlap the source, the call returns, and
afterwards `dst[j] = src[j]` for `j < n`, `dst[n]` is the zero byte, the
destination reads as the source text, and the source is unchanged. -/
theorem string_write_to_string_contract (st : Mem) (dst src : CharPtr) (s : List Nat)
    (hsrc : readText st src = some s)
    (hlen : s.length ≤ INT_MAX)
    (hw : dst.block.writable = true)
    (hcap : dst.off + (s.length + 1) ≤ (st.bytes dst.block).length)
    (hdisj : dst.block ≠ src.block ∨ dst.off + s.length < src.off ∨
      src.off + s.length < dst.off) :
    ∃ st1, string_write_to_string st (some dst) (some src) = some (st1, ()) ∧
      (∀ j, j < s.length → loadByte st1 (dst.add j) = loadByte st (src.add j)) ∧
      loadByte st1 (dst.add s.length) = some 0 ∧
      readText st1 dst = some s ∧
      readText st1 src = some s := by
  have hov : dst.block ≠ src.block ∨ dst.off ≤ src.off ∨ src.off + s.length < dst.off := by
    rcases hdisj with h | h | h
    · exact Or.inl h
    · exact Or.inr (Or.inl (by omega))
    · exact Or.inr (Or.inr h)
  have hk : dst.off ≤ (st.bytes dst.block).length := by omega
  obtain ⟨hz, r, hr⟩ := textOf_some hsrc
  refine ⟨_, string_write_to_string_eq st dst src s hsrc hlen hw (by omega) hov, ?_, ?_, ?_, ?_⟩
  · intro j hj
    have h1 := loadByte_poke st dst.block dst.off (s ++ [0]) j hk (by simp; omega)
    have h2 : loadByte st (src.add j) = s[j]? := by
      simp only [loadByte, CharPtr.add]
      rw [← List.getElem?_drop, hr, List.getElem?_append_left hj]
    rw [h2]
    simpa [CharPtr.add, List.getElem?_append_left hj] using h1
  · have h1 := loadByte_poke st dst.block dst.off (s ++ [0]) s.length hk (by simp)
    simpa [CharPtr.add] using h1
  · exact readText_poke st dst.block dst.off s hz hk
  · by_cases hb : src.block = dst.block
    · simp only [readText]
      rw [hb, poke_bytes_self]
      rcases hdisj with h | h | h
      · exact absurd hb.symm h
      · rw [drop_splice_of_le _ _ _ _ (by simp; omega) hk, ← hb]
        exact hsrc
      · exact textOf_drop_splice_after _ _ _ _ _ (by rw [← hb]; exact hsrc) h
    · rw [readText_poke_other _ _ _ _ _ hb]
      exact hsrc

/-- Witness for C2: copying "copy-me" (block 1 of `exampleMem`) into the
16-byte buffer (block 2). -/
theorem string_write_to_string_contract_witness :
    ∃ st1, string_write_to_string exampleMem (some ⟨.caller 2, 0⟩) (some ⟨.caller 1, 0⟩)
        = some (st1, ()) ∧
      (∀ j, j < (cstr "copy-me").length →
        loadByte st1 (CharPtr.add ⟨.caller 2, 0⟩ j)
          = loadByte exampleMem (CharPtr.add ⟨.caller 1, 0⟩ j)) ∧
      loadByte st1 (CharPtr.add ⟨.caller 2, 0⟩ (cstr "copy-me").length) = some 0 ∧
      readText st1 ⟨.caller 2, 0⟩ = some (cstr "copy-me") ∧
      readText st1 ⟨.caller 1, 0⟩ = some (cstr "copy-me") :=
  string_write_to_string_contract exampleMem ⟨.caller 2, 0⟩ ⟨.caller 1, 0⟩ (cstr "copy-me")
    (by decide) (by decide) rfl (by decide) (Or.inl (by decide))

theorem longMem_overflow (n : Nat) (hn : INT_MAX < n) :
    readText (longMem n) ⟨.caller 0, 0⟩ = some (List.replicate n 97) ∧
    (List.replicate n 97).length + 1 ≤ ((longMem n).bytes (.caller 1)).length ∧
    Block.caller 1 ≠ Block.caller 0 ∧
    string_write_to_string (longMem n) (some ⟨.caller 1, 0⟩) (some ⟨.caller 0, 0⟩) = none := by
  have hb0 : (longMem n).bytes (.caller 0) = List.replicate n 97 ++ [0] := rfl
  have hb1 : (longMem n).bytes (.caller 1) = List.replicate (n + 1) 0 := rfl
  refine ⟨?_, ?_, by decide, ?_⟩
  · simp only [readText, hb0, List.drop_zero]
    apply textOf_append
    intro c hc
    rw [List.eq_of_mem_replicate hc]
    decide
  · rw [hb1, List.length_replicate, List.length_replicate]
  · have h := byteLoop_overflow (.caller 1) (.caller 0) 0 0 (by decide)
      (List.replicate n 97 ++ [0])
      (by
        intro j hj c hc
        rw [Nat.zero_add, List.getElem?_append_left (by rw [List.length_replicate]; omega)] at hc
        rw [List.eq_of_mem_replicate (List.getElem?_mem hc)]
        decide)
      INT_MAX (loopFuel (longMem n) ⟨.caller 0, 0⟩) (longMem n) 0 (by omega) hb0
    simp only [string_write_to_string, h]

/-- C2 (as stated, refuted): a source text of 2147483648 bytes (`INT_MAX + 1`)
and a separate destination of 2147483649 bytes satisfy everything the claim
asks for, and the call has no defined result: the `int` index would have to be
incremented past `INT_MAX`. -/
theorem string_write_to_string_int_index :
    readText (longMem 2147483648) ⟨.caller 0, 0⟩ = some (List.replicate 2147483648 97) ∧
    (List.replicate 2147483648 97).length + 1
      ≤ ((longMem 2147483648).bytes (.caller 1)).length ∧
    Block.caller 1 ≠ Block.caller 0 ∧
    string_write_to_string (longMem 2147483648) (some ⟨.caller 1, 0⟩) (some ⟨.caller 0, 0⟩)
      = none :=
  longMem_overflow 2147483648 (by decide)

/-! ## `string_pointer_pointer_return` and `string_test_pointer_ret` -/

/-- C3 (amended): `string_pointer_pointer_return(value)`. For every non-null
text `value` of fewer than 512 bytes that does not overlap the bytes the call
writes to its static buffer (a text in any other object, or behind byte `|s|`
of the buffer), the call returns a reference whose dereference is the
non-null pointer to the static buffer, and the buffer reads as the text of
`value`; for a null `value` the dereference of the returned reference is
null. -/
theorem string_pointer_pointer_return_contract (st : Mem) (hwf : st.WF) :
    (∀ (v : CharPtr) (s : List Nat), readText st v = some s → s.length < 512 →
      (v.block ≠ .pointer_pointer_return_buffer ∨ s.length < v.off) →
      ∃ st1 pp, string_pointer_pointer_return st (some v) = some (st1, some pp) ∧
        string_pointer_pointer_get st1 (some pp)
          = some (st1, some ⟨.pointer_pointer_return_buffer, 0⟩) ∧
        readText st1 ⟨.pointer_pointer_return_buffer, 0⟩ = some s) ∧
    (∃ st1 pp, string_pointer_pointer_return st none = some (st1, some pp) ∧
        string_pointer_pointer_get st1 (some pp) = some (st1, none)) := by
  constructor
  · intro v s hv hlen hsep
    refine ⟨_, _, string_pointer_pointer_return_eq st hwf v s hv hlen hsep, ?_, ?_⟩
    · simp [string_pointer_pointer_get, loadSlot, Mem.setSlot]
    · rw [readText_setSlot]
      exact readText_poke st _ 0 s (textOf_some hv).1 (Nat.zero_le _)
  · exact ⟨_, _, rfl, by simp [string_pointer_pointer_get, loadSlot]⟩

/-- Witness for C3: the text "hello" (block 4 of `exampleMem`). -/
theorem string_pointer_pointer_return_contract_witness :
    (∃ st1 pp, string_pointer_pointer_return exampleMem (some ⟨.caller 4, 0⟩)
          = some (st1, some pp) ∧
        string_pointer_pointer_get st1 (some pp)
          = some (st1, some ⟨.pointer_pointer_return_buffer, 0⟩) ∧
        readText st1 ⟨.pointer_pointer_return_buffer, 0⟩ = some (cstr "hello")) ∧
    (∃ st1 pp, string_pointer_pointer_return exampleMem none = some (st1, some pp) ∧
        string_pointer_pointer_get st1 (some pp) = some (st1, none)) :=
  have h := string_pointer_pointer_return_contract exampleMem wf_exampleMem
  ⟨h.1 ⟨.caller 4, 0⟩ (cstr "hello") (by decide) (by decide) (Or.inl (by decide)), h.2⟩

/-- C3 (as stated, refuted): after `string_pointer_pointer_return("hello")`,
the dereference of the returned reference is a non-null text of 5 bytes, the
static buffer itself; passing it to the function again is
`strcpy(buffer, buffer)`, a copy between overlapping objects, and has no
defined result. -/
theorem string_pointer_pointer_return_own_buffer :
    run exampleMem [.pointer_pointer_return (some ⟨.caller 4, 0⟩)] = some helloMem ∧
    string_pointer_pointer_get helloMem (some (.slot .pointer_pointer_return_tmp))
      = some (helloMem, some ⟨.pointer_pointer_return_buffer, 0⟩) ∧
    readText helloMem ⟨.pointer_pointer_return_buffer, 0⟩ = some (cstr "hello") ∧
    (cstr "hello").length < 512 ∧
    string_pointer_pointer_return helloMem (some ⟨.pointer_pointer_return_buffer, 0⟩)
      = none := by
  have ht : readText helloMem ⟨.pointer_pointer_return_buffer, 0⟩ = some (cstr "hello") := by
    show readText (exampleMem.poke .pointer_pointer_return_buffer 0 (cstr "hello" ++ [0])) _ = _
    exact readText_poke _ _ 0 _ (by decide) (Nat.zero_le _)
  refine ⟨run_to_helloMem, ?_, ht, by decide, ?_⟩
  · simp [string_pointer_pointer_get, loadSlot, helloMem, Mem.setSlot]
  · have ho : overlap ⟨.pointer_pointer_return_buffer, 0⟩ ((cstr "hello").length + 1)
        ⟨.pointer_pointer_return_buffer, 0⟩ ((cstr "hello").length + 1) = true := by decide
    simp only [string_pointer_pointer_return, strcpy, ht, ho]
    rfl

/-- C4 (the code at a failing input): `string_test_pointer_ret("foo")` copies
"foo" into its static buffer and returns the address of that buffer itself,
cast to `char **`. The text "foo" is found at the returned address, not behind
a pointer stored there: the returned reference is no slot, and reading a
`char *` through it has no defined value. For a null argument the returned
reference is the static slot `null`, whose content is null. -/
theorem string_test_pointer_ret_foo :
    (∃ st1, string_test_pointer_ret exampleMem (some ⟨.caller 3, 0⟩)
        = some (st1, some (.chars ⟨.test_pointer_ret_buffer, 0⟩)) ∧
      readText st1 ⟨.test_pointer_ret_buffer, 0⟩ = some (cstr "foo") ∧
      string_pointer_pointer_get st1 (some (.chars ⟨.test_pointer_ret_buffer, 0⟩)) = none ∧
      ∀ sl : Slot, PtrPtr.chars ⟨.test_pointer_ret_buffer, 0⟩ ≠ PtrPtr.slot sl) ∧
    (string_test_pointer_ret exampleMem none
        = some (exampleMem, some (.slot .test_pointer_ret_null)) ∧
      string_pointer_pointer_get exampleMem (some (.slot .test_pointer_ret_null))
        = some (exampleMem, none)) := by
  refine ⟨⟨_, string_test_pointer_ret_eq exampleMem wf_exampleMem ⟨.caller 3, 0⟩ (cstr "foo")
    (by decide) (by decide) (Or.inl (by decide)), ?_, rfl, ?_⟩, rfl, rfl⟩
  · exact readText_poke exampleMem _ 0 _ (by decide) (Nat.zero_le _)
  · intro sl h
    exact PtrPtr.noConfusion h

/-! ## The callback slot and the caller's slots -/

/-- C6: the callback slot. `string_set_closure(f)` stores `f` whatever the
slot held and leaves the trace alone; after any sequence of registrations
whose last is the function `f`, `string_call_closure(v)` appends exactly one
entry to the trace, the call of `f` with `v`, and leaves everything else,
the slot included, as it was. -/
theorem string_closure_contract (st : Mem) :
    (∀ c : closure_t, ∃ st1, string_set_closure st c = some (st1, ()) ∧
      st1.my_closure = c ∧ st1.calls = st.calls) ∧
    (∀ (earlier : List closure_t) (f : Nat) (v : char_p),
      ∃ st1, run st ((earlier ++ [some f]).map Call.set_closure) = some st1 ∧
        st1.my_closure = some f ∧ st1.calls = st.calls ∧
        ∃ st2, string_call_closure st1 v = some (st2, ()) ∧
          st2.calls = st.calls ++ [(f, v)] ∧ st2.my_closure = some f ∧
          st2.bytes = st.bytes ∧ st2.slots = st.slots) := by
  constructor
  · intro c
    exact ⟨_, rfl, rfl, rfl⟩
  · intro earlier f v
    have key : ∀ (l : List closure_t) (s : Mem),
        ∃ s1, run s ((l ++ [some f]).map Call.set_closure) = some s1 ∧
          s1.my_closure = some f ∧ s1.calls = s.calls ∧ s1.bytes = s.bytes ∧
          s1.slots = s.slots := by
      intro l
      induction l with
      | nil => intro s; exact ⟨_, rfl, rfl, rfl, rfl, rfl⟩
      | cons c l ih =>
        intro s
        obtain ⟨s1, h1, h2, h3, h4, h5⟩ := ih { s with my_closure := c }
        exact ⟨s1, h1, h2, h3, h4, h5⟩
    obtain ⟨s1, h1, h2, h3, h4, h5⟩ := key earlier st
    refine ⟨s1, h1, h2, h3, { s1 with calls := s1.calls ++ [(f, v)] }, ?_, ?_, h2, h4, h5⟩
    · simp only [string_call_closure, h2]
    · simp only [h3]

/-- C7: for every slot `p` and every pointer `v`, null included,
`string_pointer_pointer_set(p, v)` followed by `string_pointer_pointer_get(p)`
returns `v` itself, whatever the slot held; the write changes no other slot
and no byte, and `string_pointer_pointer_get` changes nothing at all. -/
theorem string_pointer_pointer_set_get (st : Mem) (p : Slot) (v : char_p) :
    (∃ st1, string_pointer_pointer_set st (some (.slot p)) v = some (st1, ()) ∧
      string_pointer_pointer_get st1 (some (.slot p)) = some (st1, v) ∧
      (∀ q : Slot, q ≠ p → st1.slots q = st.slots q) ∧
      st1.bytes = st.bytes ∧ st1.my_closure = st.my_closure ∧ st1.calls = st.calls) ∧
    (∀ (ptr : char_pp) (st2 : Mem) (r : char_p),
      string_pointer_pointer_get st ptr = some (st2, r) → st2 = st) := by
  constructor
  · refine ⟨st.setSlot p v, rfl, ?_, ?_, rfl, rfl, rfl⟩
    · simp [string_pointer_pointer_get, loadSlot, Mem.setSlot]
    · intro q hq
      simp [Mem.setSlot, Function.update_noteq hq]
  · intro ptr st2 r h
    unfold string_pointer_pointer_get at h
    split at h
    · exact Option.noConfusion h
    · split at h
      · exact Option.noConfusion h
      · exact (Prod.mk.inj (Option.some.inj h)).1.symm

/-! ## `string_matches_foobarbaz` -/

theorem strcmpBytes_texts :
    ∀ (l1 l2 s t : List Nat), textOf l1 = some s → textOf l2 = some t →
      ∃ r, strcmpBytes l1 l2 = some r ∧ (r = 0 ↔ s = t) := by
  intro l1
  induction l1 with
  | nil => intro l2 s t h1 _; simp [textOf] at h1
  | cons a as ih =>
    intro l2 s t h1 h2
    cases l2 with
    | nil => simp [textOf] at h2
    | cons b bs =>
      by_cases hab : a = b
      · subst hab
        by_cases ha : a = 0
        · subst ha
          rw [textOf_zero] at h1 h2
          refine ⟨0, by simp [strcmpBytes], ?_⟩
          rw [← Option.some.inj h1, ← Option.some.inj h2]
          simp
        · rw [textOf_cons ha] at h1 h2
          cases hs : textOf as with
          | none => simp [hs] at h1
          | some s1 =>
            cases ht : textOf bs with
            | none => simp [ht] at h2
            | some t1 =>
              simp [hs] at h1
              simp [ht] at h2
              obtain ⟨r, hr, hiff⟩ := ih bs s1 t1 hs ht
              refine ⟨r, by simp [strcmpBytes, ha, hr], ?_⟩
              rw [hiff, ← h1, ← h2]
              simp
      · refine ⟨(a : Int) - (b : Int), by simp [strcmpBytes, hab], ?_⟩
        have hne : ((a : Int) - (b : Int) = 0) ↔ False := by
          constructor
          · intro h; exact hab (by omega)
          · exact False.elim
        rw [hne, false_iff]
        intro hst
        subst hst
        by_cases ha : a = 0
        · subst ha
          rw [textOf_zero] at h1
          have hb : b ≠ 0 := fun h => hab h.symm
          rw [textOf_cons hb] at h2
          rw [← Option.some.inj h1] at h2
          cases ht : textOf bs with
          | none => simp [ht] at h2
          | some t1 => simp [ht] at h2
        · rw [textOf_cons ha] at h1
          cases hs : textOf as with
          | none => simp [hs] at h1
          | some s1 =>
            simp [hs] at h1
            subst h1
            by_cases hb : b = 0
            · subst hb
              rw [textOf_zero] at h2
              exact List.noConfusion (Option.some.inj h2)
            · rw [textOf_cons hb] at h2
              cases ht : textOf bs with
              | none => simp [ht] at h2
              | some t1 =>
                simp [ht] at h2
                exact hab h2.1.symm

theorem string_matches_foobarbaz_eq (st : Mem) (hwf : st.WF) (value : CharPtr) (s : List Nat)
    (hv : readText st value = some s) :
    string_matches_foobarbaz st (some value)
      = some (st, if s = cstr "foobarbaz" then 1 else 0) := by
  obtain ⟨r, hr, hiff⟩ := strcmpBytes_texts _ _ s (cstr "foobarbaz") hv
    (readText_lit_foobarbaz st hwf)
  simp only [string_matches_foobarbaz, strcmp, hr, hiff]

/-- C8: `string_matches_foobarbaz(value)`. For every non-null text the result
is 1 if the text is byte for byte "foobarbaz" and 0 otherwise; it is 0 for the
empty text, "Foobarbaz", "FOOBARBAZ", "foobar" and "foobarbazz". -/
theorem string_matches_foobarbaz_contract (st : Mem) (hwf : st.WF) :
    (∀ (value : CharPtr) (s : List Nat), readText st value = some s →
      ∃ r, string_matches_foobarbaz st (some value) = some (st, r) ∧
        (r = 1 ↔ s = cstr "foobarbaz") ∧ (r = 0 ↔ s ≠ cstr "foobarbaz")) ∧
    (∀ (value : CharPtr) (s : List Nat), readText st value = some s →
      s ∈ [cstr "", cstr "Foobarbaz", cstr "FOOBARBAZ", cstr "foobar", cstr "foobarbazz"] →
      string_matches_foobarbaz st (some value) = some (st, 0)) := by
  constructor
  · intro value s hv
    refine ⟨_, string_matches_foobarbaz_eq st hwf value s hv, ?_, ?_⟩
    · by_cases h : s = cstr "foobarbaz" <;> simp [h]
    · by_cases h : s = cstr "foobarbaz" <;> simp [h]
  · intro value s hv hs
    rw [string_matches_foobarbaz_eq st hwf value s hv]
    have hne : s ≠ cstr "foobarbaz" := by
      intro h
      rw [h] at hs
      revert hs
      decide
    simp [hne]

/-- Witness for C8: in `exampleMem` the literal "foobarbaz" matches and the
text "Foobarbaz" of block 5 does not. -/
theorem string_matches_foobarbaz_contract_witness :
    (∃ r, string_matches_foobarbaz exampleMem (some ⟨.lit_foobarbaz, 0⟩)
        = some (exampleMem, r) ∧
      (r = 1 ↔ cstr "foobarbaz" = cstr "foobarbaz") ∧
      (r = 0 ↔ cstr "foobarbaz" ≠ cstr "foobarbaz")) ∧
    string_matches_foobarbaz exampleMem (some ⟨.caller 5, 0⟩) = some (exampleMem, 0) :=
  have h := string_matches_foobarbaz_contract exampleMem wf_exampleMem
  ⟨h.1 ⟨.lit_foobarbaz, 0⟩ (cstr "foobarbaz") (by decide),
    h.2 ⟨.caller 5, 0⟩ (cstr "Foobarbaz") (by decide) (by decide)⟩

/-! ## `string_fixed_test` -/

/-- C9: `string_return_foobarbaz` after any sequence of calls of the file's
functions, started from any caller memory: it returns a pointer to the text
"foobarbaz" and leaves the memory alone, and `string_matches_foobarbaz` of the
returned pointer is 1. -/
theorem string_return_foobarbaz_contract (cbytes : Nat → List Nat) (cslots : Nat → char_p)
    (calls : List Call) (st : Mem) (hrun : run (Mem.init cbytes cslots) calls = some st) :
    ∃ p, string_return_foobarbaz st = some (st, some p) ∧
      readText st p = some (cstr "foobarbaz") ∧
      string_matches_foobarbaz st (some p) = some (st, 1) := by
  have hwf : st.WF := wf_reachable cbytes cslots calls st hrun
  refine ⟨⟨.lit_foobarbaz, 0⟩, rfl, readText_lit_foobarbaz st hwf, ?_⟩
  rw [string_matches_foobarbaz_eq st hwf _ _ (readText_lit_foobarbaz st hwf)]
  simp

/-- Witness for C9: the memory `aliasMem`, reached from `exampleMem` by two
calls that write the static buffer and a slot. -/
theorem string_return_foobarbaz_contract_witness :
    ∃ p, string_return_foobarbaz aliasMem = some (aliasMem, some p) ∧
      readText aliasMem p = some (cstr "foobarbaz") ∧
      string_matches_foobarbaz aliasMem (some p) = some (aliasMem, 1) :=
  string_return_foobarbaz_contract _ _ _ aliasMem run_to_aliasMem

end FFIString
